import Mathlib

/-!
RedLine: track geometry, progress driver and lap detector

A shallow embedding of the path-geometry and timing code of the RedLine
simulator (`src/utils/trackUtils.js`, `src/data/trackPointMaps.js`,
`src/components/CanvasPlaceholder.jsx`, `src/pages/Simulation.jsx`).

JavaScript numbers are modelled as exact rationals (`ℚ`): every statement
below is about the algorithms in exact arithmetic, not about IEEE rounding.
The one exception is the index arithmetic of the resampling loop of the curve
generators, whose `Math.floor` selects the samples that are read: there the
two roundings of the double computation `(i / sampleCount) * pts.length` are
modelled by `toDouble`.
Library functions whose values are irrational (`Math.hypot`, `Math.sin`,
`Math.cos`, `Math.atan2`) are parameters of the definitions that call them.
-/

namespace RedLine

/-! ## Numbers -/

/-- Truncation toward zero, the integer part used by the JavaScript `%`. -/
def jsTrunc (a : ℚ) : ℤ := if 0 ≤ a then ⌊a⌋ else ⌈a⌉

/-- The JavaScript remainder `a % b` (sign of the dividend) for `b ≠ 0`. -/
def jsRem (a b : ℚ) : ℚ := a - b * (jsTrunc (a / b) : ℚ)

/-- The function `Math.round`: the nearest integer, halves rounded toward `+∞`. -/
def mathRound (v : ℚ) : ℚ := ((⌊v + 1 / 2⌋ : ℤ) : ℚ)

/-- The function `Math.floor`, as a number. -/
def mathFloor (v : ℚ) : ℚ := ((⌊v⌋ : ℤ) : ℚ)

/-- The nearest integer, ties to the even one. -/
def roundHalfEven (y : ℚ) : ℤ :=
  if y - (⌊y⌋ : ℚ) < 1 / 2 then ⌊y⌋
  else if 1 / 2 < y - (⌊y⌋ : ℚ) then ⌊y⌋ + 1
  else if ⌊y⌋ % 2 = 0 then ⌊y⌋ else ⌊y⌋ + 1

/-- The exponent `e` with `2 ^ e ≤ x < 2 ^ (e + 1)` of a positive number `x`,
searched from `e` in at most `fuel` steps. -/
def binadeFrom : ℕ → ℤ → ℚ → ℤ
  | 0, e, _ => e
  | fuel + 1, e, x =>
    if x < (2 : ℚ) ^ e then binadeFrom fuel (e - 1) x
    else if (2 : ℚ) ^ (e + 1) ≤ x then binadeFrom fuel (e + 1) x
    else e

/-- The double nearest to `x` (IEEE 754 binary64, round to nearest, ties to
even) for `x` in the range of normal doubles: a significand of 53 bits. -/
def toDouble (x : ℚ) : ℚ :=
  if x = 0 then 0
  else
    (if x < 0 then -1 else 1) *
      ((roundHalfEven (|x| * (2 : ℚ) ^ (52 - binadeFrom 1100 0 |x|)) : ℤ) : ℚ) *
      (2 : ℚ) ^ (binadeFrom 1100 0 |x| - 52)

/-- The expression `((t % 1) + 1) % 1` that wraps a progress value. -/
def wrapProgress (t : ℚ) : ℚ := jsRem (jsRem t 1 + 1) 1

/-! ## `src/utils/trackUtils.js` -/

/-- A plain coordinate `{x, y}`. -/
structure Point where
  x : ℚ
  y : ℚ
  deriving DecidableEq, Repr

/-- The pure core of `normalizeTrack` once the list is known to be non-empty:
`p` is the first point and `ps` the others.  `rnd` is the final rounding
applied to each coordinate (`Math.round` in `trackUtils.js`, nothing in
`CanvasPlaceholder.jsx`). -/
def normalizeWith (rnd : ℚ → ℚ) (p : Point) (ps : List Point)
    (width height padding : ℚ) : List Point :=
  let points := p :: ps
  let minX := (ps.map Point.x).foldl min p.x
  let maxX := (ps.map Point.x).foldl max p.x
  let minY := (ps.map Point.y).foldl min p.y
  let maxY := (ps.map Point.y).foldl max p.y
  let dataW := max 1 (maxX - minX)
  let dataH := max 1 (maxY - minY)
  let targetW := max 1 (width - 2 * padding)
  let targetH := max 1 (height - 2 * padding)
  let scale := min (targetW / dataW) (targetH / dataH)
  let offsetX := padding + (targetW - dataW * scale) / 2
  let offsetY := padding + (targetH - dataH * scale) / 2
  points.map fun q =>
    { x := rnd ((q.x - minX) * scale + offsetX)
      y := rnd ((q.y - minY) * scale + offsetY) }

/-- The function `normalizeTrack(points, width, height, padding)` of
`trackUtils.js`. -/
def normalizeTrack (points : List Point) (width height padding : ℚ) : List Point :=
  match points with
  | [] => []
  | p :: ps => normalizeWith mathRound p ps width height padding

/-- A segment `{a, b, len}` between two consecutive points. -/
structure Segment where
  a : Point
  b : Point
  len : ℚ
  deriving DecidableEq, Repr

/-- The length `Math.hypot(dx, dy) || 0.00001` of a segment: a zero length is
replaced by the floor `0.00001`. -/
def segLen (hypot : ℚ → ℚ → ℚ) (a b : Point) : ℚ :=
  let dx := b.x - a.x
  let dy := b.y - a.y
  if hypot dx dy = 0 then 0.00001 else hypot dx dy

/-- The first loop of `getPositionOnTrack`: one segment for each pair of
consecutive points. -/
def buildSegs (hypot : ℚ → ℚ → ℚ) : List Point → List Segment
  | a :: b :: rest => { a := a, b := b, len := segLen hypot a b } :: buildSegs hypot (b :: rest)
  | _ => []

/-- The running `total += len` of the first loop. -/
def totalLen (segs : List Segment) : ℚ := segs.foldl (fun acc s => acc + s.len) 0

/-- The record returned by `getPositionOnTrack`; the early return for an
empty list carries neither `segmentIndex` nor `localT`. -/
structure Position where
  x : ℚ
  y : ℚ
  segmentIndex : Option ℤ
  localT : Option ℚ
  deriving DecidableEq, Repr

/-- The second loop of `getPositionOnTrack`, from segment number `i` on with
accumulated length `acc`; `none` when the loop ends without returning. -/
def scan (targetDist : ℚ) : List Segment → ℚ → ℕ → Option Position
  | [], _, _ => none
  | seg :: rest, acc, i =>
    if acc + seg.len ≥ targetDist then
      let localT := (targetDist - acc) / seg.len
      some { x := seg.a.x + (seg.b.x - seg.a.x) * localT
             y := seg.a.y + (seg.b.y - seg.a.y) * localT
             segmentIndex := some (i : ℤ)
             localT := some localT }
    else scan targetDist rest (acc + seg.len) (i + 1)

/-- The function `getPositionOnTrack(polylinePoints, t)` of `trackUtils.js`. -/
def getPositionOnTrack (hypot : ℚ → ℚ → ℚ) (polylinePoints : List Point) (t : ℚ) : Position :=
  match polylinePoints with
  | [] => { x := 0, y := 0, segmentIndex := none, localT := none }
  | p :: ps =>
    let tt := wrapProgress t
    let segs := buildSegs hypot (p :: ps)
    let total := totalLen segs
    if total = 0 then
      { x := p.x, y := p.y, segmentIndex := some 0, localT := some 0 }
    else
      let targetDist := tt * total
      match scan targetDist segs 0 0 with
      | some r => r
      | none =>
        let last := (p :: ps).getLast (List.cons_ne_nil p ps)
        { x := last.x, y := last.y
          segmentIndex := some (((p :: ps).length : ℤ) - 2), localT := some 1 }

/-! ## `src/components/CanvasPlaceholder.jsx`: marker -/

/-- The `normalized` memo of `CanvasPlaceholder`: the same computation as
`normalizeTrack` without the final rounding. -/
def normalized (rawTrackPoints : List Point) (width height padding : ℚ) : List Point :=
  match rawTrackPoints with
  | [] => []
  | p :: ps => normalizeWith id p ps width height padding

/-- The `segInfo` memo: `{ segs, total }`, empty below two points. -/
def segInfo (hypot : ℚ → ℚ → ℚ) (pts : List Point) : List Segment × ℚ :=
  if pts.length < 2 then ([], 0) else (buildSegs hypot pts, totalLen (buildSegs hypot pts))

/-- The record computed by the `marker` memo. -/
structure Marker where
  x : ℚ
  y : ℚ
  angle : ℚ
  segmentIndex : Option ℤ
  localT : Option ℚ
  deriving DecidableEq, Repr

/-- The scan loop of the `marker` memo. -/
def markerScan (atan2 : ℚ → ℚ → ℚ) (targetDist : ℚ) : List Segment → ℚ → ℕ → Option Marker
  | [], _, _ => none
  | s :: rest, acc, i =>
    if acc + s.len ≥ targetDist then
      let localT := (targetDist - acc) / s.len
      some { x := s.a.x + (s.b.x - s.a.x) * localT
             y := s.a.y + (s.b.y - s.a.y) * localT
             angle := atan2 (s.b.y - s.a.y) (s.b.x - s.a.x)
             segmentIndex := some (i : ℤ)
             localT := some localT }
    else markerScan atan2 targetDist rest (acc + s.len) (i + 1)

/-- The `marker` memo of `CanvasPlaceholder`, over the already normalized
points `pts`.  The last `none` case cannot occur: `segs` is not empty there. -/
def marker (hypot atan2 : ℚ → ℚ → ℚ) (pts : List Point) (width height carProgress : ℚ) : Marker :=
  let segs := (segInfo hypot pts).1
  let total := (segInfo hypot pts).2
  if segs.length = 0 ∨ total ≤ 0 then
    match pts with
    | p :: _ => { x := p.x, y := p.y, angle := 0, segmentIndex := none, localT := none }
    | [] => { x := width / 2, y := height / 2, angle := 0, segmentIndex := none, localT := none }
  else
    let t := wrapProgress carProgress
    let targetDist := t * total
    match markerScan atan2 targetDist segs 0 0 with
    | some m => m
    | none =>
      match segs.getLast? with
      | some last =>
        { x := last.b.x, y := last.b.y
          angle := atan2 (last.b.y - last.a.y) (last.b.x - last.a.x)
          segmentIndex := some ((segs.length : ℤ) - 1), localT := some 1 }
      | none => { x := width / 2, y := height / 2, angle := 0, segmentIndex := none, localT := none }

/-! ## `src/components/CanvasPlaceholder.jsx`: lap detection -/

/-- The argument passed to `onLap`. -/
structure LapEvent where
  lapTimeSeconds : Option ℚ
  progress : ℚ
  deriving DecidableEq, Repr

/-- The two refs of the lap detection effect. -/
structure LapRefs where
  prevProgress : ℚ
  lapTimestamp : Option ℚ
  deriving DecidableEq, Repr

/-- One run of the lap detection effect with the current `carProgress` and
the value `now` of `performance.now()`.  `onLapIsFunction` is the test
`typeof onLap === "function"`; the test `if (lapTimestampRef.current)` is
JavaScript truthiness, so a stored timestamp `0` counts as absent. -/
def lapEffect (onLapIsFunction : Bool) (refs : LapRefs) (carProgress now : ℚ) :
    LapRefs × Option LapEvent :=
  let prev := refs.prevProgress
  let cur := carProgress
  if prev > 0.9 ∧ cur < 0.1 then
    let lapTimeSeconds : Option ℚ :=
      match refs.lapTimestamp with
      | some ts => if ts ≠ 0 then some ((now - ts) / 1000) else none
      | none => none
    ({ prevProgress := cur, lapTimestamp := some now },
      if onLapIsFunction then some { lapTimeSeconds := lapTimeSeconds, progress := cur } else none)
  else
    ({ prevProgress := cur, lapTimestamp := refs.lapTimestamp }, none)

/-- The effect run once for each observation `(carProgress, now)`, in order;
the result lists what each run passed to `onLap`, if anything. -/
def lapRun (onLapIsFunction : Bool) : LapRefs → List (ℚ × ℚ) → List (Option LapEvent)
  | _, [] => []
  | refs, (cur, now) :: rest =>
    (lapEffect onLapIsFunction refs cur now).2 ::
      lapRun onLapIsFunction (lapEffect onLapIsFunction refs cur now).1 rest

/-- The lap detector over a whole sequence of observations: the refs start as
`useRef(carProgress)` (the first observed value) and `useRef(null)`. -/
def lapDetector (onLapIsFunction : Bool) (obs : List (ℚ × ℚ)) : List (Option LapEvent) :=
  match obs with
  | [] => []
  | (c0, _) :: _ => lapRun onLapIsFunction { prevProgress := c0, lapTimestamp := none } obs

/-! ## `src/pages/Simulation.jsx`: progress driver -/

/-- The `difficultyFactor` memo. -/
def difficultyFactor (aiDifficulty : String) : ℚ :=
  if aiDifficulty = "Easy" then 0.9 else if aiDifficulty = "Hard" then 1.2 else 1.0

/-- The constant `SPEED` of the simulation loop effect. -/
def SPEED (tyreCompound sessionType : String) (fuelKg difficultyFactor : ℚ) : ℚ :=
  let baseSpeed : ℚ := 0.0006
  let tyreFactor : ℚ :=
    if tyreCompound = "soft" then 1.03 else if tyreCompound = "medium" then 1.0 else 0.97
  let sessionFactor : ℚ :=
    if sessionType = "Practice" then 0.9 else if sessionType = "Qualifying" then 1.15 else 1.0
  let fuelClamped := min (max fuelKg 5) 120
  let fuelFactor := 1 - ((fuelClamped - 5) / 115) * 0.13
  baseSpeed * tyreFactor * sessionFactor * fuelFactor * difficultyFactor

/-- The updater passed to `setCarProgress` inside `step`. -/
def tickUpdate (speed dt prev : ℚ) : ℚ :=
  let next := prev + speed * (dt / (1000 / 60))
  if next ≥ 1 then next - mathFloor next else next

/-- The state the animation loop carries: the closure variable `last` and
the React state `carProgress`. -/
structure Loop where
  last : ℚ
  carProgress : ℚ
  deriving DecidableEq, Repr

/-- One animation frame `step(now)`. -/
def step (speed : ℚ) (st : Loop) (now : ℚ) : Loop :=
  let dt := now - st.last
  { last := now, carProgress := tickUpdate speed dt st.carProgress }

/-- The frames at the successive timestamps `nows`. -/
def runSteps (speed : ℚ) (st : Loop) (nows : List ℚ) : Loop := nows.foldl (step speed) st

/-- The timestamps at which `step` runs when the frames arrive `dts[0]`,
`dts[1]`, ... milliseconds apart, the first one `dts[0]` after `last`. -/
def timestamps (last : ℚ) : List ℚ → List ℚ
  | [] => []
  | dt :: rest => (last + dt) :: timestamps (last + dt) rest

/-! ## `src/pages/Simulation.jsx`: start, stop and the animation loop -/

/-- The part of the state of the `Simulation` component that the progress
driver reads and writes: the React state (`isRunning`, `carProgress`,
`runMinutes`, `remainingSeconds` and the speed parameters), the length of
`normalizedTrack`, whether `animationFrameRef.current` holds a pending
`requestAnimationFrame` request, and the closure variable `last` of the
loop. -/
structure Sim where
  isRunning : Bool
  carProgress : ℚ
  runMinutes : ℚ
  remainingSeconds : Option ℚ
  tyreCompound : String
  sessionType : String
  fuelKg : ℚ
  aiDifficulty : String
  trackPoints : ℕ
  frameRequested : Bool
  last : ℚ
  deriving DecidableEq, Repr

/-- The value of `SPEED` for the parameters in the state. -/
def Sim.speed (st : Sim) : ℚ :=
  SPEED st.tyreCompound st.sessionType st.fuelKg (difficultyFactor st.aiDifficulty)

/-- The simulation loop effect as it runs after a change of `isRunning`: the
cleanup of the previous run has cancelled the pending frame; the body returns
early when `!isRunning` or the track is empty, and otherwise reads
`performance.now()` into `last` and requests the first frame. -/
def loopEffect (st : Sim) (now : ℚ) : Sim :=
  if st.isRunning = false ∨ st.trackPoints = 0 then
    { st with frameRequested := false }
  else
    { st with last := now, frameRequested := true }

/-- The handler `handleStartStop`, followed by the effect that the change of
`isRunning` triggers; `now` is the value of `performance.now()` read by the
effect. -/
def handleStartStop (st : Sim) (now : ℚ) : Sim :=
  let next := !st.isRunning
  let expired : Bool :=
    match st.remainingSeconds with
    | none => true
    | some r => decide (r ≤ 0)
  let remaining :=
    if next = true ∧ st.runMinutes > 0 ∧ expired = true then some (st.runMinutes * 60)
    else st.remainingSeconds
  loopEffect { st with isRunning := next, remainingSeconds := remaining } now

/-- The browser running animation frame callbacks at time `now`: the callback
`step` runs only when a request is pending, and requests the next frame. -/
def animationFrame (st : Sim) (now : ℚ) : Sim :=
  if st.frameRequested = true then
    let r := step st.speed { last := st.last, carProgress := st.carProgress } now
    { st with last := r.last, carProgress := r.carProgress, frameRequested := true }
  else st

/-- The handler `handleReset`: it stops the driver, sets the progress to `0`,
restores the remaining time and cancels the pending frame; the loop effect
that a change of `isRunning` triggers then returns early and changes nothing
more. -/
def handleReset (st : Sim) : Sim :=
  { st with
    isRunning := false
    carProgress := 0
    remainingSeconds := if st.runMinutes > 0 then some (st.runMinutes * 60) else none
    frameRequested := false }

/-- The state is settled when a frame is pending exactly while the driver is
running on a non-empty track, which is what the loop effect establishes. -/
def Sim.Settled (st : Sim) : Prop :=
  st.frameRequested = (st.isRunning && decide (st.trackPoints ≠ 0))

instance (st : Sim) : Decidable st.Settled := by
  unfold Sim.Settled
  infer_instance

/-! ## Statements in the words of the specification -/

/-- Two point lists have the same length and agree, position by position,
in both coordinates up to `tol`. -/
def withinTolerance (tol : ℚ) (ps qs : List Point) : Prop :=
  ps.length = qs.length ∧
    ∀ pq ∈ ps.zip qs, |pq.1.x - pq.2.x| ≤ tol ∧ |pq.1.y - pq.2.y| ≤ tol

instance (tol : ℚ) (ps qs : List Point) : Decidable (withinTolerance tol ps qs) := by
  unfold withinTolerance
  infer_instance

/-- The timestamps of the wraps in a sequence of observations
`(progress, now)`: those observations whose progress is below `0.1` while the
previous one was above `0.9`. -/
def wrapTimes : ℚ → List (ℚ × ℚ) → List ℚ
  | _, [] => []
  | prev, (cur, now) :: rest =>
    if prev > 0.9 ∧ cur < 0.1 then now :: wrapTimes cur rest else wrapTimes cur rest

/-- The lap times the specification asks for, given the timestamps of the
wraps: nothing for the first wrap, then the gap to the wrap before, in
seconds. -/
def lapTimesSpec : Option ℚ → List ℚ → List (Option ℚ)
  | _, [] => []
  | prevWrap, now :: rest =>
    prevWrap.map (fun ts => (now - ts) / 1000) :: lapTimesSpec (some now) rest

/-- The timestamps of the wraps of a whole sequence of observations, the
first observation having no predecessor but itself. -/
def wrapTimesOf (obs : List (ℚ × ℚ)) : List ℚ :=
  match obs with
  | [] => []
  | (c0, _) :: _ => wrapTimes c0 obs

/-- A run with two wraps `12300` ms apart: progress values observed at the
given values of `performance.now()`. -/
def twoWraps : List (ℚ × ℚ) :=
  [(0.95, 1000), (0.02, 2000), (0.5, 8000), (0.95, 14000), (0.03, 14300)]

/-- The advance from `prev` to `cur` along the closed track: the forward
distance modulo `1`. -/
def advance (prev cur : ℚ) : ℚ := Int.fract (cur - prev)

/-- The length of the open polyline through the points: the sum of the
lengths of the segments from each point to the next, none from the last point
back to the first. -/
def openLength (hypot : ℚ → ℚ → ℚ) : List Point → ℚ
  | a :: b :: rest => segLen hypot a b + openLength hypot (b :: rest)
  | _ => 0

/-- The rounding of both coordinates of a point with `Math.round`. -/
def roundPoint (q : Point) : Point := { x := mathRound q.x, y := mathRound q.y }

/-- An axis-parallel box `[minX, maxX] × [minY, maxY]`. -/
structure Box where
  minX : ℚ
  maxX : ℚ
  minY : ℚ
  maxY : ℚ
  deriving DecidableEq, Repr

/-- The box is the bounding box of the points: each side is the coordinate of
some point, and no point lies outside. -/
def IsBoundingBox (pts : List Point) (b : Box) : Prop :=
  (b.minX ∈ pts.map Point.x ∧ ∀ v ∈ pts.map Point.x, b.minX ≤ v) ∧
  (b.maxX ∈ pts.map Point.x ∧ ∀ v ∈ pts.map Point.x, v ≤ b.maxX) ∧
  (b.minY ∈ pts.map Point.y ∧ ∀ v ∈ pts.map Point.y, b.minY ≤ v) ∧
  (b.maxY ∈ pts.map Point.y ∧ ∀ v ∈ pts.map Point.y, v ≤ b.maxY)

instance (pts : List Point) (b : Box) : Decidable (IsBoundingBox pts b) := by
  unfold IsBoundingBox
  infer_instance

/-- The width of the data, floored at `1`. -/
def Box.dataW (b : Box) : ℚ := max 1 (b.maxX - b.minX)

/-- The height of the data, floored at `1`. -/
def Box.dataH (b : Box) : ℚ := max 1 (b.maxY - b.minY)

/-- The side of the target rectangle along an axis of the viewport: the size
less the padding on both sides, floored at `1`. -/
def targetSide (size padding : ℚ) : ℚ := max 1 (size - 2 * padding)

/-- The common scale `s = min(targetW / dataW, targetH / dataH)`. -/
def fitScale (b : Box) (width height padding : ℚ) : ℚ :=
  min (targetSide width padding / b.dataW) (targetSide height padding / b.dataH)

/-- The fit of one point as the specification writes it, with a final
rounding `rnd` of each coordinate:
`(x - minX) * s + padding + (targetW - dataW * s) / 2`, and the same in `y`. -/
def fitPoint (rnd : ℚ → ℚ) (b : Box) (width height padding : ℚ) (q : Point) : Point :=
  { x := rnd ((q.x - b.minX) * fitScale b width height padding + padding
        + (targetSide width padding - b.dataW * fitScale b width height padding) / 2)
    y := rnd ((q.y - b.minY) * fitScale b width height padding + padding
        + (targetSide height padding - b.dataH * fitScale b width height padding) / 2) }

/-- The fields that the record of `marker` shares with a position sample. -/
def Marker.toPosition (m : Marker) : Position :=
  { x := m.x, y := m.y, segmentIndex := m.segmentIndex, localT := m.localT }

/-! ## `src/data/trackPointMaps.js` -/

/-- Linear interpolation of two numbers. -/
def lerp (a b t : ℚ) : ℚ := a + (b - a) * t

/-- Linear interpolation of two points. -/
def mix (p0 p1 : Point) (t : ℚ) : Point :=
  { x := lerp p0.x p1.x t, y := lerp p0.y p1.y t }

/-- The Catmull-Rom cubic between `p1` and `p2`. -/
def catmullRom (p0 p1 p2 p3 : Point) (t : ℚ) : Point :=
  let t2 := t * t
  let t3 := t2 * t
  { x := 0.5 *
      ((2 * p1.x) +
        (-p0.x + p2.x) * t +
        (2 * p0.x - 5 * p1.x + 4 * p2.x - p3.x) * t2 +
        (-p0.x + 3 * p1.x - 3 * p2.x + p3.x) * t3)
    y := 0.5 *
      ((2 * p1.y) +
        (-p0.y + p2.y) * t +
        (2 * p0.y - 5 * p1.y + 4 * p2.y - p3.y) * t2 +
        (-p0.y + 3 * p1.y - 3 * p2.y + p3.y) * t3) }

/-- Collects the values of a list of computations; `none` as soon as one of
them failed (an array read out of range, which throws on `.x`). -/
def allSome {α : Type} : List (Option α) → Option (List α)
  | [] => some []
  | none :: _ => none
  | some a :: rest => (allSome rest).map (fun l => a :: l)

/-- The nested sampling loop shared by the three generators: for each
segment `s` and each `i < perSeg`, the spline point at `t = i / perSeg`,
moved by the generator's own perturbation `place s t`. -/
def splineSamples (closed : List Point) (segments perSeg : ℕ)
    (place : ℕ → ℚ → Point → Point) : Option (List Point) :=
  allSome (((List.range segments).map fun (s : ℕ) =>
    (List.range perSeg).map fun (i : ℕ) =>
      let t := (i : ℚ) / (perSeg : ℚ)
      match closed[s]?, closed[s + 1]?, closed[s + 2]?, closed[s + 3]? with
      | some p0, some p1, some p2, some p3 => some (place s t (catmullRom p0 p1 p2 p3 t))
      | _, _, _, _ => none).flatten)

/-- The final loop shared by the three generators: `sampleCount` points
taken by linear interpolation along the index of `pts`.  The index
`(i / sampleCount) * pts.length` is computed as the code computes it, in
doubles: the quotient is rounded, then the product. -/
def resample (pts : List Point) (sampleCount : ℕ) : Option (List Point) :=
  allSome ((List.range sampleCount).map fun (i : ℕ) =>
    let idx := toDouble (toDouble ((i : ℚ) / (sampleCount : ℚ)) * (pts.length : ℚ))
    let i0 := ⌊idx⌋.toNat % pts.length
    let i1 := (i0 + 1) % pts.length
    let frac := idx - mathFloor idx
    match pts[i0]?, pts[i1]? with
    | some a, some b => some (mix a b frac)
    | _, _ => none)

/-- The anchors of `generateMonza`. -/
def monzaAnchors : List Point :=
  [⟨0, 0⟩, ⟨320, -10⟩, ⟨480, 40⟩, ⟨620, 140⟩, ⟨560, 260⟩,
   ⟨420, 320⟩, ⟨240, 300⟩, ⟨140, 200⟩, ⟨180, 80⟩, ⟨260, 20⟩]

/-- The anchors of `generateSilverstone`. -/
def silverstoneAnchors : List Point :=
  [⟨0, 0⟩, ⟨140, -30⟩, ⟨260, -10⟩, ⟨360, 40⟩, ⟨420, 110⟩,
   ⟨360, 200⟩, ⟨240, 240⟩, ⟨120, 220⟩, ⟨40, 160⟩, ⟨20, 80⟩]

/-- The anchors of `generateSpa`. -/
def spaAnchors : List Point :=
  [⟨0, 0⟩, ⟨120, -40⟩, ⟨220, -20⟩, ⟨350, 40⟩, ⟨420, 140⟩,
   ⟨520, 240⟩, ⟨640, 300⟩, ⟨520, 360⟩, ⟨360, 340⟩, ⟨200, 240⟩]

/-- The array `[...anchors, anchors[0], anchors[1], anchors[2]]`. -/
def closeAnchors (anchors : List Point) : List Point := anchors ++ anchors.take 3

/-- The generator `generateMonza(sampleCount)`; `none` stands for a thrown
`TypeError`. -/
def generateMonza (sampleCount : ℕ) : Option (List Point) :=
  let closed := closeAnchors monzaAnchors
  let segments := closed.length - 3
  let perSeg := max 3 (sampleCount / segments)
  match splineSamples closed segments perSeg (fun _ _ p => p) with
  | some pts => resample pts sampleCount
  | none => none

/-- The generator `generateSilverstone(sampleCount)`, with `Math.sin` and `Math.cos` as
parameters. -/
def generateSilverstone (sin cos : ℚ → ℚ) (sampleCount : ℕ) : Option (List Point) :=
  let closed := closeAnchors silverstoneAnchors
  let segments := closed.length - 3
  let perSeg := max 3 (sampleCount / segments)
  let place : ℕ → ℚ → Point → Point := fun s t base =>
    let wobble := sin (((s : ℚ) + t) * 6) * 1.2
    { x := base.x + wobble * (if s % 2 ≠ 0 then 1 else -1)
      y := base.y + cos (((s : ℚ) + t) * 4) * 0.8 }
  match splineSamples closed segments perSeg place with
  | some pts => resample pts sampleCount
  | none => none

/-- The generator `generateSpa(sampleCount)`, with `Math.sin` and `Math.cos` as
parameters. -/
def generateSpa (sin cos : ℚ → ℚ) (sampleCount : ℕ) : Option (List Point) :=
  let closed := closeAnchors spaAnchors
  let segments := closed.length - 3
  let perSeg := max 3 (sampleCount / segments)
  let place : ℕ → ℚ → Point → Point := fun s t base =>
    let r := sin (((s : ℚ) + t) * 3) * 1.6
    { x := base.x + r * cos (((s : ℚ) + t) * 2.3)
      y := base.y + r * sin (((s : ℚ) + t) * 2.3) }
  match splineSamples closed segments perSeg place with
  | some pts => resample pts sampleCount
  | none => none

/-- An exact stand-in for `Math.hypot` on inputs whose hypotenuse is
rational (axis-parallel segments, Pythagorean triples). -/
def hypotQ (dx dy : ℚ) : ℚ := Rat.sqrt (dx * dx + dy * dy)

/-! ## Lemmas on numbers -/

theorem jsRem_one_of_nonneg (a : ℚ) (h : 0 ≤ a) : jsRem a 1 = Int.fract a := by
  unfold jsRem jsTrunc
  rw [div_one, if_pos h, one_mul]
  rfl

theorem wrapProgress_eq_fract (t : ℚ) : wrapProgress t = Int.fract t := by
  unfold wrapProgress
  have key : ∀ n : ℤ, 0 ≤ t - n + 1 → jsRem (t - n + 1) 1 = Int.fract t := by
    intro n hn
    rw [jsRem_one_of_nonneg _ hn]
    have : t - (n : ℚ) + 1 = t + ((1 - n : ℤ) : ℚ) := by push_cast; ring
    rw [this, Int.fract_add_int]
  by_cases h : 0 ≤ t
  · have h1 : jsRem t 1 = t - (⌊t⌋ : ℚ) := by
      unfold jsRem jsTrunc
      rw [div_one, if_pos h, one_mul]
    rw [h1]
    apply key
    have := Int.floor_le t
    linarith
  · have h1 : jsRem t 1 = t - (⌈t⌉ : ℚ) := by
      unfold jsRem jsTrunc
      rw [div_one, if_neg h, one_mul]
    rw [h1]
    apply key
    have := Int.ceil_lt_add_one t
    linarith


/-! ## Lemmas on segments and the scan -/

theorem segLen_pos (hypot : ℚ → ℚ → ℚ) (hh : ∀ dx dy, 0 ≤ hypot dx dy) (a b : Point) :
    0 < segLen hypot a b := by
  unfold segLen
  simp only
  split_ifs with h
  · norm_num
  · exact lt_of_le_of_ne (hh _ _) (Ne.symm h)

theorem foldl_len (segs : List Segment) (acc : ℚ) :
    segs.foldl (fun acc s => acc + s.len) acc = acc + (segs.map Segment.len).sum := by
  induction segs generalizing acc with
  | nil => simp
  | cons s rest ih => simp [List.foldl_cons, ih, add_assoc]

theorem totalLen_eq_sum (segs : List Segment) :
    totalLen segs = (segs.map Segment.len).sum := by
  unfold totalLen
  rw [foldl_len, zero_add]

theorem buildSegs_cons_cons (hypot : ℚ → ℚ → ℚ) (a b : Point) (rest : List Point) :
    buildSegs hypot (a :: b :: rest) =
      { a := a, b := b, len := segLen hypot a b } :: buildSegs hypot (b :: rest) := by
  rw [buildSegs]

theorem buildSegs_len_pos (hypot : ℚ → ℚ → ℚ) (hh : ∀ dx dy, 0 ≤ hypot dx dy) :
    ∀ (pts : List Point) (s : Segment), s ∈ buildSegs hypot pts → 0 < s.len
  | [], s, hs => by simp [buildSegs] at hs
  | [_], s, hs => by simp [buildSegs] at hs
  | a :: b :: rest, s, hs => by
    rw [buildSegs_cons_cons, List.mem_cons] at hs
    rcases hs with rfl | hs
    · exact segLen_pos hypot hh a b
    · exact buildSegs_len_pos hypot hh (b :: rest) s hs

theorem buildSegs_getElem? (hypot : ℚ → ℚ → ℚ) :
    ∀ (pts : List Point) (k : ℕ) (seg : Segment), (buildSegs hypot pts)[k]? = some seg →
      pts[k]? = some seg.a ∧ pts[k + 1]? = some seg.b ∧ seg.len = segLen hypot seg.a seg.b
  | [], k, seg, h => by simp [buildSegs] at h
  | [_], k, seg, h => by simp [buildSegs] at h
  | a :: b :: rest, 0, seg, h => by
    rw [buildSegs_cons_cons] at h
    simp only [List.getElem?_cons_zero, Option.some.injEq] at h
    subst h
    simp
  | a :: b :: rest, k + 1, seg, h => by
    rw [buildSegs_cons_cons, List.getElem?_cons_succ] at h
    have ih := buildSegs_getElem? hypot (b :: rest) k seg h
    simpa using ih

theorem sum_len_pos (segs : List Segment) (hpos : ∀ s ∈ segs, 0 < s.len) (hne : segs ≠ []) :
    0 < (segs.map Segment.len).sum := by
  cases segs with
  | nil => exact absurd rfl hne
  | cons s rest =>
    have h1 : 0 < s.len := hpos s (List.mem_cons_self _ _)
    have h2 : 0 ≤ (rest.map Segment.len).sum :=
      List.sum_nonneg (by
        intro x hx
        rcases List.mem_map.1 hx with ⟨s', hs', rfl⟩
        exact le_of_lt (hpos s' (List.mem_cons_of_mem _ hs')))
    simp only [List.map_cons, List.sum_cons]
    linarith

/-- The scan returns at the first segment whose cumulative length reaches the
target, whenever the target does not exceed the whole length. -/
theorem scan_spec (T : ℚ) : ∀ (segs : List Segment) (acc : ℚ) (i : ℕ),
    T ≤ acc + (segs.map Segment.len).sum → segs ≠ [] →
    ∃ (k : ℕ) (seg : Segment), segs[k]? = some seg ∧
      T ≤ acc + ((segs.take k).map Segment.len).sum + seg.len ∧
      (∀ j, j < k → acc + ((segs.take (j + 1)).map Segment.len).sum < T) ∧
      scan T segs acc i = some
        { x := seg.a.x + (seg.b.x - seg.a.x) *
            ((T - (acc + ((segs.take k).map Segment.len).sum)) / seg.len)
          y := seg.a.y + (seg.b.y - seg.a.y) *
            ((T - (acc + ((segs.take k).map Segment.len).sum)) / seg.len)
          segmentIndex := some ((i + k : ℕ) : ℤ)
          localT := some ((T - (acc + ((segs.take k).map Segment.len).sum)) / seg.len) }
  | [], _, _, _, hne => absurd rfl hne
  | s :: rest, acc, i, hT, _ => by
    by_cases h : acc + s.len ≥ T
    · refine ⟨0, s, by simp, by simpa using h, by intro j hj; omega, ?_⟩
      simp [scan, h]
    · have hrest : rest ≠ [] := by
        rintro rfl
        simp at hT
        exact h hT
      have hT' : T ≤ acc + s.len + (rest.map Segment.len).sum := by
        simp only [List.map_cons, List.sum_cons] at hT
        linarith
      obtain ⟨k, seg, hk, hle, hfirst, hscan⟩ := scan_spec T rest (acc + s.len) (i + 1) hT' hrest
      refine ⟨k + 1, seg, by simpa using hk, ?_, ?_, ?_⟩
      · simp only [List.take_succ_cons, List.map_cons, List.sum_cons]
        linarith
      · intro j hj
        cases j with
        | zero =>
          simp only [zero_add, List.take_succ_cons, List.take_zero, List.map_cons, List.map_nil,
            List.sum_cons, List.sum_nil, add_zero]
          exact lt_of_not_ge h
        | succ j =>
          have := hfirst j (by omega)
          simp only [List.take_succ_cons, List.map_cons, List.sum_cons]
          linarith
      · rw [scan, if_neg h, hscan]
        simp only [List.take_succ_cons, List.map_cons, List.sum_cons]
        have e1 : acc + s.len + ((rest.take k).map Segment.len).sum
            = acc + (s.len + ((rest.take k).map Segment.len).sum) := by ring
        have e2 : i + 1 + k = i + (k + 1) := by ring
        rw [e1, e2]

/-- With at least two points and a non-negative `hypot`, the resolver takes
the scan branch and returns from inside the loop. -/
theorem getPositionOnTrack_scan (hypot : ℚ → ℚ → ℚ) (hh : ∀ dx dy, 0 ≤ hypot dx dy)
    (pts : List Point) (hn : 2 ≤ pts.length) (t : ℚ) :
    0 < totalLen (buildSegs hypot pts) ∧
    scan (Int.fract t * totalLen (buildSegs hypot pts)) (buildSegs hypot pts) 0 0
      = some (getPositionOnTrack hypot pts t) := by
  match pts, hn with
  | a :: b :: rest, _ =>
    have hne : buildSegs hypot (a :: b :: rest) ≠ [] := by
      rw [buildSegs_cons_cons]; exact List.cons_ne_nil _ _
    have hpos : 0 < totalLen (buildSegs hypot (a :: b :: rest)) := by
      rw [totalLen_eq_sum]
      exact sum_len_pos _ (buildSegs_len_pos hypot hh _) hne
    refine ⟨hpos, ?_⟩
    have hT : Int.fract t * totalLen (buildSegs hypot (a :: b :: rest))
        ≤ 0 + ((buildSegs hypot (a :: b :: rest)).map Segment.len).sum := by
      rw [zero_add, ← totalLen_eq_sum]
      have := Int.fract_lt_one t
      nlinarith [Int.fract_nonneg t]
    obtain ⟨k, seg, _, _, _, hscan⟩ := scan_spec _ _ 0 0 hT hne
    unfold getPositionOnTrack
    simp only [wrapProgress_eq_fract, if_neg (ne_of_gt hpos), hscan]

/-! ## Lemmas on the curve generators -/

theorem allSome_of_forall {α : Type} : ∀ (l : List (Option α)), (∀ o ∈ l, ∃ a, o = some a) →
    ∃ out, allSome l = some out ∧ out.length = l.length
  | [], _ => ⟨[], rfl, rfl⟩
  | none :: _, h => by
    obtain ⟨a, ha⟩ := h none (List.mem_cons_self _ _)
    cases ha
  | some a :: rest, h => by
    obtain ⟨out, hout, hlen⟩ :=
      allSome_of_forall rest (fun o ho => h o (List.mem_cons_of_mem _ ho))
    exact ⟨a :: out, by simp [allSome, hout], by simp [hlen]⟩

theorem splineSamples_some (closed : List Point) (segments perSeg : ℕ)
    (place : ℕ → ℚ → Point → Point) (hc : segments + 3 ≤ closed.length) :
    ∃ pts, splineSamples closed segments perSeg place = some pts ∧
      pts.length = segments * perSeg := by
  unfold splineSamples
  obtain ⟨out, hout, hlen⟩ := allSome_of_forall
    (((List.range segments).map fun (s : ℕ) =>
      (List.range perSeg).map fun (i : ℕ) =>
        match closed[s]?, closed[s + 1]?, closed[s + 2]?, closed[s + 3]? with
        | some p0, some p1, some p2, some p3 =>
          some (place s ((i : ℚ) / (perSeg : ℚ)) (catmullRom p0 p1 p2 p3 ((i : ℚ) / (perSeg : ℚ))))
        | _, _, _, _ => none).flatten)
    (by
      intro o ho
      simp only [List.mem_flatten, List.mem_map, List.mem_range] at ho
      obtain ⟨l, ⟨s, hs, rfl⟩, ho⟩ := ho
      simp only [List.mem_map, List.mem_range] at ho
      obtain ⟨i, _, rfl⟩ := ho
      have h0 : s < closed.length := by omega
      have h1 : s + 1 < closed.length := by omega
      have h2 : s + 2 < closed.length := by omega
      have h3 : s + 3 < closed.length := by omega
      rw [List.getElem?_eq_getElem h0, List.getElem?_eq_getElem h1,
        List.getElem?_eq_getElem h2, List.getElem?_eq_getElem h3]
      exact ⟨_, rfl⟩)
  refine ⟨out, hout, ?_⟩
  rw [hlen, List.length_flatten]
  simp [List.map_map, Function.comp_def]

theorem resample_some (pts : List Point) (sampleCount : ℕ) (hne : 0 < pts.length) :
    ∃ out, resample pts sampleCount = some out ∧ out.length = sampleCount := by
  unfold resample
  obtain ⟨out, hout, hlen⟩ := allSome_of_forall
    ((List.range sampleCount).map fun (i : ℕ) =>
      match pts[⌊toDouble (toDouble ((i : ℚ) / (sampleCount : ℚ)) * (pts.length : ℚ))⌋.toNat
          % pts.length]?,
        pts[(⌊toDouble (toDouble ((i : ℚ) / (sampleCount : ℚ)) * (pts.length : ℚ))⌋.toNat
          % pts.length + 1) % pts.length]? with
      | some a, some b =>
        some (mix a b (toDouble (toDouble ((i : ℚ) / (sampleCount : ℚ)) * (pts.length : ℚ))
          - mathFloor (toDouble (toDouble ((i : ℚ) / (sampleCount : ℚ)) * (pts.length : ℚ)))))
      | _, _ => none)
    (by
      intro o ho
      simp only [List.mem_map, List.mem_range] at ho
      obtain ⟨i, _, rfl⟩ := ho
      rw [List.getElem?_eq_getElem (Nat.mod_lt _ hne), List.getElem?_eq_getElem (Nat.mod_lt _ hne)]
      exact ⟨_, rfl⟩)
  exact ⟨out, hout, by simpa using hlen⟩

/-- The shape shared by the three generators: ten spans sampled, then
resampled to `sampleCount` points. -/
theorem generate_length (anchors : List Point) (ha : anchors.length = 10)
    (place : ℕ → ℚ → Point → Point) (sampleCount : ℕ) :
    ∃ out,
      (match splineSamples (closeAnchors anchors) ((closeAnchors anchors).length - 3)
          (max 3 (sampleCount / ((closeAnchors anchors).length - 3))) place with
        | some pts => resample pts sampleCount
        | none => none) = some out ∧ out.length = sampleCount := by
  have hlen : (closeAnchors anchors).length = 13 := by
    simp [closeAnchors, ha]
  obtain ⟨pts, hpts, hl⟩ := splineSamples_some (closeAnchors anchors)
    ((closeAnchors anchors).length - 3)
    (max 3 (sampleCount / ((closeAnchors anchors).length - 3))) place (by omega)
  rw [hpts]
  have hpos : 0 < pts.length := by
    rw [hl, hlen]
    have : 3 ≤ max 3 (sampleCount / (13 - 3)) := le_max_left _ _
    positivity
  exact resample_some pts sampleCount hpos

theorem generateMonza_length (sampleCount : ℕ) :
    ∃ out, generateMonza sampleCount = some out ∧ out.length = sampleCount :=
  generate_length monzaAnchors rfl _ sampleCount

/-! ## Lemmas on the normalizer -/

theorem foldl_min_le (l : List ℚ) (a : ℚ) :
    l.foldl min a ≤ a ∧ ∀ x ∈ l, l.foldl min a ≤ x := by
  induction l generalizing a with
  | nil => simp
  | cons b rest ih =>
    obtain ⟨h1, h2⟩ := ih (min a b)
    refine ⟨le_trans h1 (min_le_left _ _), ?_⟩
    intro x hx
    rcases List.mem_cons.1 hx with rfl | hx
    · exact le_trans h1 (min_le_right _ _)
    · exact h2 x hx

theorem le_foldl_max (l : List ℚ) (a : ℚ) :
    a ≤ l.foldl max a ∧ ∀ x ∈ l, x ≤ l.foldl max a := by
  induction l generalizing a with
  | nil => simp
  | cons b rest ih =>
    obtain ⟨h1, h2⟩ := ih (max a b)
    refine ⟨le_trans (le_max_left _ _) h1, ?_⟩
    intro x hx
    rcases List.mem_cons.1 hx with rfl | hx
    · exact le_trans (le_max_right _ _) h1
    · exact h2 x hx

/-- One axis of the fit before rounding: a coordinate inside the bounding
box lands inside the padded target interval. -/
theorem fit_axis_bounds (v lo hi dataOther target targetOther padding : ℚ)
    (hlo : lo ≤ v) (hhi : v ≤ hi) (ht : 0 < target) (hto : 0 < targetOther)
    (hdo : 0 < dataOther) :
    padding ≤ (v - lo) * min (target / max 1 (hi - lo)) (targetOther / dataOther)
        + (padding + (target - max 1 (hi - lo)
          * min (target / max 1 (hi - lo)) (targetOther / dataOther)) / 2) ∧
    (v - lo) * min (target / max 1 (hi - lo)) (targetOther / dataOther)
        + (padding + (target - max 1 (hi - lo)
          * min (target / max 1 (hi - lo)) (targetOther / dataOther)) / 2) ≤ padding + target := by
  have hD : 0 < max 1 (hi - lo) := lt_of_lt_of_le one_pos (le_max_left _ _)
  have hs0 : 0 < min (target / max 1 (hi - lo)) (targetOther / dataOther) :=
    lt_min (div_pos ht hD) (div_pos hto hdo)
  have hs1 : max 1 (hi - lo) * min (target / max 1 (hi - lo)) (targetOther / dataOther)
      ≤ target := by
    calc max 1 (hi - lo) * min (target / max 1 (hi - lo)) (targetOther / dataOther)
        ≤ max 1 (hi - lo) * (target / max 1 (hi - lo)) :=
          mul_le_mul_of_nonneg_left (min_le_left _ _) (le_of_lt hD)
      _ = target := by field_simp
  have hd0 : 0 ≤ v - lo := by linarith
  have hd1 : v - lo ≤ max 1 (hi - lo) := le_trans (by linarith) (le_max_right _ _)
  have h1 : 0 ≤ (v - lo) * min (target / max 1 (hi - lo)) (targetOther / dataOther) :=
    mul_nonneg hd0 (le_of_lt hs0)
  have h2 : (v - lo) * min (target / max 1 (hi - lo)) (targetOther / dataOther)
      ≤ max 1 (hi - lo) * min (target / max 1 (hi - lo)) (targetOther / dataOther) :=
    mul_le_mul_of_nonneg_right hd1 (le_of_lt hs0)
  constructor <;> linarith

theorem mathRound_bounds (v : ℚ) (lo hi : ℤ) (h1 : (lo : ℚ) ≤ v) (h2 : v ≤ (hi : ℚ)) :
    (lo : ℚ) ≤ mathRound v ∧ mathRound v ≤ (hi : ℚ) := by
  unfold mathRound
  constructor
  · have : lo ≤ ⌊v + 1 / 2⌋ := Int.le_floor.2 (by linarith)
    exact_mod_cast this
  · have h3 : ⌊v + 1 / 2⌋ < hi + 1 := Int.floor_lt.2 (by push_cast; linarith)
    have : ⌊v + 1 / 2⌋ ≤ hi := by omega
    exact_mod_cast this

theorem hypotQ_nonneg (dx dy : ℚ) : 0 ≤ hypotQ dx dy := Rat.sqrt_nonneg _

/-! ## Claims on `getPositionOnTrack` -/

/-- C1. Arc-length correctness of `getPositionOnTrack`: for a list of at
least two points and every progress `t`, the resolver returns a segment
index `i` and a local parameter `l` such that the lengths of segments
`0..i-1` plus `l` times the length of segment `i` equal `frac(t)` times the
total length, and the returned `(x, y)` is `a + (b - a) * l` for the end
points `a = points[i]`, `b = points[i+1]` of segment `i`. -/
theorem getPositionOnTrack_arc_length (hypot : ℚ → ℚ → ℚ) (hh : ∀ dx dy, 0 ≤ hypot dx dy)
    (pts : List Point) (hn : 2 ≤ pts.length) (t : ℚ) :
    ∃ (i : ℕ) (l : ℚ) (seg : Segment),
      (getPositionOnTrack hypot pts t).segmentIndex = some (i : ℤ) ∧
      (getPositionOnTrack hypot pts t).localT = some l ∧
      (buildSegs hypot pts)[i]? = some seg ∧
      pts[i]? = some seg.a ∧ pts[i + 1]? = some seg.b ∧
      seg.len = segLen hypot seg.a seg.b ∧
      (((buildSegs hypot pts).take i).map Segment.len).sum + l * seg.len
        = Int.fract t * totalLen (buildSegs hypot pts) ∧
      (getPositionOnTrack hypot pts t).x = seg.a.x + (seg.b.x - seg.a.x) * l ∧
      (getPositionOnTrack hypot pts t).y = seg.a.y + (seg.b.y - seg.a.y) * l := by
  obtain ⟨hpos, hres⟩ := getPositionOnTrack_scan hypot hh pts hn t
  have hne : buildSegs hypot pts ≠ [] := by
    intro h
    rw [h] at hpos
    simp [totalLen] at hpos
  have hT : Int.fract t * totalLen (buildSegs hypot pts)
      ≤ 0 + ((buildSegs hypot pts).map Segment.len).sum := by
    rw [zero_add, ← totalLen_eq_sum]
    have := Int.fract_lt_one t
    nlinarith [Int.fract_nonneg t]
  obtain ⟨k, seg, hk, _, _, hscan⟩ := scan_spec _ _ 0 0 hT hne
  rw [hres, Option.some.injEq] at hscan
  obtain ⟨ha, hb, hlen⟩ := buildSegs_getElem? hypot pts k seg hk
  have hseg : seg.len ≠ 0 :=
    ne_of_gt (buildSegs_len_pos hypot hh pts seg (List.getElem?_mem hk))
  refine ⟨k, (Int.fract t * totalLen (buildSegs hypot pts)
      - (0 + (((buildSegs hypot pts).take k).map Segment.len).sum)) / seg.len,
    seg, ?_, ?_, hk, ha, hb, hlen, ?_, ?_, ?_⟩
  · rw [hscan]; simp
  · rw [hscan]
  · field_simp
  · rw [hscan]
  · rw [hscan]

/-- C1, at a concrete input: the path `(0,0) → (3,4) → (3,10)` at progress `1/2`. -/
theorem getPositionOnTrack_arc_length_witness :
    (∀ dx dy, 0 ≤ hypotQ dx dy) ∧ 2 ≤ [(⟨0, 0⟩ : Point), ⟨3, 4⟩, ⟨3, 10⟩].length ∧
    ∃ (i : ℕ) (l : ℚ) (seg : Segment),
      (getPositionOnTrack hypotQ [⟨0, 0⟩, ⟨3, 4⟩, ⟨3, 10⟩] (1 / 2)).segmentIndex = some (i : ℤ) ∧
      (getPositionOnTrack hypotQ [⟨0, 0⟩, ⟨3, 4⟩, ⟨3, 10⟩] (1 / 2)).localT = some l ∧
      (buildSegs hypotQ [⟨0, 0⟩, ⟨3, 4⟩, ⟨3, 10⟩])[i]? = some seg ∧
      [(⟨0, 0⟩ : Point), ⟨3, 4⟩, ⟨3, 10⟩][i]? = some seg.a ∧
      [(⟨0, 0⟩ : Point), ⟨3, 4⟩, ⟨3, 10⟩][i + 1]? = some seg.b ∧
      seg.len = segLen hypotQ seg.a seg.b ∧
      (((buildSegs hypotQ [⟨0, 0⟩, ⟨3, 4⟩, ⟨3, 10⟩]).take i).map Segment.len).sum + l * seg.len
        = Int.fract (1 / 2 : ℚ) * totalLen (buildSegs hypotQ [⟨0, 0⟩, ⟨3, 4⟩, ⟨3, 10⟩]) ∧
      (getPositionOnTrack hypotQ [⟨0, 0⟩, ⟨3, 4⟩, ⟨3, 10⟩] (1 / 2)).x
        = seg.a.x + (seg.b.x - seg.a.x) * l ∧
      (getPositionOnTrack hypotQ [⟨0, 0⟩, ⟨3, 4⟩, ⟨3, 10⟩] (1 / 2)).y
        = seg.a.y + (seg.b.y - seg.a.y) * l :=
  ⟨hypotQ_nonneg, by decide,
    getPositionOnTrack_arc_length hypotQ hypotQ_nonneg [⟨0, 0⟩, ⟨3, 4⟩, ⟨3, 10⟩] (by decide) (1 / 2)⟩

/-- C3. Periodicity of `getPositionOnTrack`: for every point list, every
progress `t` (negative ones included) and every integer `k`, the sample at
`t + k` is the sample at `t`. -/
theorem getPositionOnTrack_periodic (hypot : ℚ → ℚ → ℚ) (pts : List Point) (t : ℚ) (k : ℤ) :
    getPositionOnTrack hypot pts (t + k) = getPositionOnTrack hypot pts t := by
  cases pts with
  | nil => rfl
  | cons p ps =>
    unfold getPositionOnTrack
    simp only [wrapProgress_eq_fract, Int.fract_add_int]

/-- C4. Resolve at zero: for a list of at least two points,
`getPositionOnTrack(points, 0)` is the first point, with `segmentIndex = 0`
and `localT = 0`. -/
theorem getPositionOnTrack_zero (hypot : ℚ → ℚ → ℚ) (hh : ∀ dx dy, 0 ≤ hypot dx dy)
    (pts : List Point) (hn : 2 ≤ pts.length) :
    ∃ p : Point, pts[0]? = some p ∧
      getPositionOnTrack hypot pts 0 =
        { x := p.x, y := p.y, segmentIndex := some 0, localT := some 0 } := by
  match pts, hn with
  | a :: b :: rest, hn =>
    refine ⟨a, rfl, ?_⟩
    obtain ⟨_, hres⟩ := getPositionOnTrack_scan hypot hh (a :: b :: rest) hn 0
    have hlen : 0 < segLen hypot a b := segLen_pos hypot hh a b
    rw [buildSegs_cons_cons, Int.fract_zero, zero_mul, scan,
      if_pos (by simpa using le_of_lt hlen)] at hres
    rw [← Option.some.injEq, ← hres]
    simp

/-- C4, at a concrete input: the path `(0,0) → (3,4) → (3,10)`. -/
theorem getPositionOnTrack_zero_witness :
    (∀ dx dy, 0 ≤ hypotQ dx dy) ∧ 2 ≤ [(⟨0, 0⟩ : Point), ⟨3, 4⟩, ⟨3, 10⟩].length ∧
    ∃ p : Point, [(⟨0, 0⟩ : Point), ⟨3, 4⟩, ⟨3, 10⟩][0]? = some p ∧
      getPositionOnTrack hypotQ [⟨0, 0⟩, ⟨3, 4⟩, ⟨3, 10⟩] 0 =
        { x := p.x, y := p.y, segmentIndex := some 0, localT := some 0 } :=
  ⟨hypotQ_nonneg, by decide,
    getPositionOnTrack_zero hypotQ hypotQ_nonneg [⟨0, 0⟩, ⟨3, 4⟩, ⟨3, 10⟩] (by decide)⟩

/-! ## Lemmas on a second normalization -/

theorem mathRound_mono : Monotone mathRound := by
  intro a b hab
  unfold mathRound
  have : ⌊a + 1 / 2⌋ ≤ ⌊b + 1 / 2⌋ := Int.floor_mono (by linarith)
  exact_mod_cast this

theorem mathRound_intCast (z : ℤ) : mathRound (z : ℚ) = z := by
  unfold mathRound
  have : ⌊(z : ℚ) + 1 / 2⌋ = z := by
    rw [Int.floor_eq_iff]
    constructor <;> linarith
  rw [this]

theorem foldl_min_map (g : ℚ → ℚ) (hg : Monotone g) (l : List ℚ) (a : ℚ) :
    (l.map g).foldl min (g a) = g (l.foldl min a) := by
  induction l generalizing a with
  | nil => rfl
  | cons b rest ih =>
    rw [List.map_cons, List.foldl_cons, List.foldl_cons, ← hg.map_min, ih]

theorem foldl_max_map (g : ℚ → ℚ) (hg : Monotone g) (l : List ℚ) (a : ℚ) :
    (l.map g).foldl max (g a) = g (l.foldl max a) := by
  induction l generalizing a with
  | nil => rfl
  | cons b rest ih =>
    rw [List.map_cons, List.foldl_cons, List.foldl_cons, ← hg.map_max, ih]

/-- One axis of a second normalization.  After a first pass the rounded box
spans `mathRound o .. mathRound (u + o)` with `o = pad + (T - u) / 2` and
`0 < u ≤ T`; its extent never exceeds the target `T`, equals `T` on the axis
that limits the scale, and with scale `1` the second pass maps every integer
coordinate to itself. -/
theorem axis_round (pad T : ℤ) (hT : 1 ≤ T) (u : ℚ) (hu0 : 0 < u) (huT : u ≤ T) :
    max 1 (mathRound (u + ((pad : ℚ) + ((T : ℚ) - u) / 2))
        - mathRound ((pad : ℚ) + ((T : ℚ) - u) / 2)) ≤ (T : ℚ) ∧
    (u = T → max 1 (mathRound (u + ((pad : ℚ) + ((T : ℚ) - u) / 2))
        - mathRound ((pad : ℚ) + ((T : ℚ) - u) / 2)) = (T : ℚ)) ∧
    ∀ z : ℤ, mathRound (((z : ℚ) - mathRound ((pad : ℚ) + ((T : ℚ) - u) / 2)) * 1
        + ((pad : ℚ) + ((T : ℚ) - max 1 (mathRound (u + ((pad : ℚ) + ((T : ℚ) - u) / 2))
          - mathRound ((pad : ℚ) + ((T : ℚ) - u) / 2)) * 1) / 2)) = (z : ℚ) := by
  have hTq : (1 : ℚ) ≤ (T : ℚ) := by exact_mod_cast hT
  unfold mathRound
  set m : ℤ := ⌊(pad : ℚ) + ((T : ℚ) - u) / 2 + 1 / 2⌋ with hm
  set M : ℤ := ⌊u + ((pad : ℚ) + ((T : ℚ) - u) / 2) + 1 / 2⌋ with hM
  have hm1 : (m : ℚ) ≤ (pad : ℚ) + ((T : ℚ) - u) / 2 + 1 / 2 := Int.floor_le _
  have hm2 : (pad : ℚ) + ((T : ℚ) - u) / 2 + 1 / 2 < (m : ℚ) + 1 := Int.lt_floor_add_one _
  have hM1 : (M : ℚ) ≤ u + ((pad : ℚ) + ((T : ℚ) - u) / 2) + 1 / 2 := Int.floor_le _
  have hM2 : u + ((pad : ℚ) + ((T : ℚ) - u) / 2) + 1 / 2 < (M : ℚ) + 1 := Int.lt_floor_add_one _
  have hmM : m ≤ M := Int.floor_mono (by linarith)
  have hMT : M ≤ pad + T := by
    have : (M : ℚ) < ((pad + T + 1 : ℤ) : ℚ) := by push_cast; linarith
    have := Int.cast_lt.1 this
    omega
  have hmp : pad ≤ m := Int.le_floor.2 (by linarith)
  have h2m : 2 * m ≤ 2 * pad + T ∨ m < M := by
    by_cases h : m < M
    · exact Or.inr h
    · left
      have : ((2 * m : ℤ) : ℚ) < ((2 * pad + T + 1 : ℤ) : ℚ) := by push_cast; linarith
      have := Int.cast_lt.1 this
      omega
  have hmMq : (m : ℚ) ≤ (M : ℚ) := by exact_mod_cast hmM
  have hMTq : (M : ℚ) ≤ (pad : ℚ) + (T : ℚ) := by exact_mod_cast hMT
  have hmpq : (pad : ℚ) ≤ (m : ℚ) := by exact_mod_cast hmp
  refine ⟨?_, ?_, ?_⟩
  · exact max_le hTq (by linarith)
  · intro huT'
    have e1 : m = pad := by
      rw [hm, Int.floor_eq_iff]
      constructor <;> linarith
    have e2 : M = pad + T := by
      rw [hM, Int.floor_eq_iff]
      constructor <;> push_cast <;> linarith
    rw [e1, e2]
    push_cast
    rw [max_eq_right (by linarith)]
    ring
  · intro z
    have goal : ⌊((z : ℚ) - (m : ℚ)) * 1
        + ((pad : ℚ) + ((T : ℚ) - max 1 ((M : ℚ) - (m : ℚ)) * 1) / 2) + 1 / 2⌋ = z := by
      rw [Int.floor_eq_iff]
      by_cases h : m < M
      · have h1 : (1 : ℚ) ≤ (M : ℚ) - (m : ℚ) := by
          have : m + 1 ≤ M := h
          have : ((m + 1 : ℤ) : ℚ) ≤ (M : ℚ) := by exact_mod_cast this
          push_cast at this
          linarith
        rw [max_eq_right h1]
        constructor <;> linarith
      · have hMm : M = m := le_antisymm (not_lt.1 h) hmM
        have h2 : 2 * m ≤ 2 * pad + T := h2m.resolve_right h
        have h2q : 2 * (m : ℚ) ≤ 2 * (pad : ℚ) + (T : ℚ) := by exact_mod_cast h2
        rw [hMm, sub_self, max_eq_left (by norm_num)]
        rw [hMm] at hM2
        constructor <;> linarith
    rw [goal]

/-- A second pass over the output of `normalizeTrack` is the identity when
the rectangle is integral and the bounding box is at least `1` in both
directions. -/
theorem normalizeWith_round_fixed (p : Point) (ps : List Point) (W H pad : ℤ)
    (hX : 1 ≤ (ps.map Point.x).foldl max p.x - (ps.map Point.x).foldl min p.x)
    (hY : 1 ≤ (ps.map Point.y).foldl max p.y - (ps.map Point.y).foldl min p.y) :
    normalizeTrack (normalizeTrack (p :: ps) W H pad) W H pad
      = normalizeTrack (p :: ps) W H pad := by
  obtain ⟨TW, hTW1, hTW⟩ : ∃ TW : ℤ, 1 ≤ TW ∧ max 1 ((W : ℚ) - 2 * (pad : ℚ)) = (TW : ℚ) :=
    ⟨max 1 (W - 2 * pad), le_max_left _ _, by push_cast; rfl⟩
  obtain ⟨TH, hTH1, hTH⟩ : ∃ TH : ℤ, 1 ≤ TH ∧ max 1 ((H : ℚ) - 2 * (pad : ℚ)) = (TH : ℚ) :=
    ⟨max 1 (H - 2 * pad), le_max_left _ _, by push_cast; rfl⟩
  have hTWq : (1 : ℚ) ≤ (TW : ℚ) := by exact_mod_cast hTW1
  have hTHq : (1 : ℚ) ≤ (TH : ℚ) := by exact_mod_cast hTH1
  generalize hmx : (ps.map Point.x).foldl min p.x = mx at hX
  generalize hMx : (ps.map Point.x).foldl max p.x = Mx at hX
  generalize hmy : (ps.map Point.y).foldl min p.y = my at hY
  generalize hMy : (ps.map Point.y).foldl max p.y = My at hY
  have hDW : (0 : ℚ) < Mx - mx := by linarith
  have hDH : (0 : ℚ) < My - my := by linarith
  obtain ⟨s, hs⟩ : ∃ s, s = min ((TW : ℚ) / (Mx - mx)) ((TH : ℚ) / (My - my)) := ⟨_, rfl⟩
  have hs0 : 0 < s := by
    rw [hs]; exact lt_min (div_pos (by linarith) hDW) (div_pos (by linarith) hDH)
  have huX : (Mx - mx) * s ≤ (TW : ℚ) := by
    calc (Mx - mx) * s ≤ (Mx - mx) * ((TW : ℚ) / (Mx - mx)) :=
          mul_le_mul_of_nonneg_left (by rw [hs]; exact min_le_left _ _) (le_of_lt hDW)
      _ = (TW : ℚ) := by field_simp
  have huY : (My - my) * s ≤ (TH : ℚ) := by
    calc (My - my) * s ≤ (My - my) * ((TH : ℚ) / (My - my)) :=
          mul_le_mul_of_nonneg_left (by rw [hs]; exact min_le_right _ _) (le_of_lt hDH)
      _ = (TH : ℚ) := by field_simp
  have hlim : (Mx - mx) * s = (TW : ℚ) ∨ (My - my) * s = (TH : ℚ) := by
    rcases min_choice ((TW : ℚ) / (Mx - mx)) ((TH : ℚ) / (My - my)) with h | h
    · left; rw [hs, h]; field_simp
    · right; rw [hs, h]; field_simp
  obtain ⟨gx, hgx⟩ : ∃ gx : ℚ → ℚ, gx = fun v =>
      mathRound ((v - mx) * s + ((pad : ℚ) + ((TW : ℚ) - (Mx - mx) * s) / 2)) := ⟨_, rfl⟩
  obtain ⟨gy, hgy⟩ : ∃ gy : ℚ → ℚ, gy = fun v =>
      mathRound ((v - my) * s + ((pad : ℚ) + ((TH : ℚ) - (My - my) * s) / 2)) := ⟨_, rfl⟩
  have mgx : Monotone gx := by
    intro a b hab
    rw [hgx]
    exact mathRound_mono (by nlinarith)
  have mgy : Monotone gy := by
    intro a b hab
    rw [hgy]
    exact mathRound_mono (by nlinarith)
  have h1 : normalizeTrack (p :: ps) W H pad
      = ⟨gx p.x, gy p.y⟩ :: ps.map (fun q => ⟨gx q.x, gy q.y⟩) := by
    simp only [normalizeTrack, normalizeWith, hTW, hTH, hmx, hMx, hmy, hMy, max_eq_right hX,
      max_eq_right hY, ← hs, hgx, hgy, List.map_cons]
  rw [h1]
  have gmx : gx mx = mathRound ((pad : ℚ) + ((TW : ℚ) - (Mx - mx) * s) / 2) := by
    rw [hgx]; simp
  have gMx : gx Mx = mathRound ((Mx - mx) * s + ((pad : ℚ) + ((TW : ℚ) - (Mx - mx) * s) / 2)) := by
    rw [hgx]
  have gmy : gy my = mathRound ((pad : ℚ) + ((TH : ℚ) - (My - my) * s) / 2) := by
    rw [hgy]; simp
  have gMy : gy My = mathRound ((My - my) * s + ((pad : ℚ) + ((TH : ℚ) - (My - my) * s) / 2)) := by
    rw [hgy]
  obtain ⟨aX1, aX2, aX3⟩ := axis_round pad TW hTW1 ((Mx - mx) * s) (mul_pos hDW hs0) huX
  obtain ⟨aY1, aY2, aY3⟩ := axis_round pad TH hTH1 ((My - my) * s) (mul_pos hDH hs0) huY
  rw [← gmx, ← gMx] at aX1 aX2 aX3
  rw [← gmy, ← gMy] at aY1 aY2 aY3
  have hDX' : (1 : ℚ) ≤ max 1 (gx Mx - gx mx) := le_max_left _ _
  have hDY' : (1 : ℚ) ≤ max 1 (gy My - gy my) := le_max_left _ _
  have hs' : min ((TW : ℚ) / max 1 (gx Mx - gx mx)) ((TH : ℚ) / max 1 (gy My - gy my)) = 1 := by
    have r1 : 1 ≤ (TW : ℚ) / max 1 (gx Mx - gx mx) := by
      rw [le_div_iff₀ (by linarith)]; linarith
    have r2 : 1 ≤ (TH : ℚ) / max 1 (gy My - gy my) := by
      rw [le_div_iff₀ (by linarith)]; linarith
    rcases hlim with h | h
    · rw [aX2 h, div_self (by linarith), min_eq_left r2]
    · rw [aY2 h, div_self (by linarith), min_eq_right r1]
  have hfix : ∀ q : Point,
      (⟨mathRound ((gx q.x - gx mx) * 1
          + ((pad : ℚ) + ((TW : ℚ) - max 1 (gx Mx - gx mx) * 1) / 2)),
        mathRound ((gy q.y - gy my) * 1
          + ((pad : ℚ) + ((TH : ℚ) - max 1 (gy My - gy my) * 1) / 2))⟩ : Point)
        = ⟨gx q.x, gy q.y⟩ := by
    intro q
    have zx : ∃ z : ℤ, gx q.x = (z : ℚ) := by rw [hgx]; exact ⟨_, rfl⟩
    have zy : ∃ z : ℤ, gy q.y = (z : ℚ) := by rw [hgy]; exact ⟨_, rfl⟩
    obtain ⟨zx, hzx⟩ := zx
    obtain ⟨zy, hzy⟩ := zy
    rw [hzx, hzy, aX3 zx, aY3 zy]
  have e1' : List.map (fun q : Point => gx q.x) ps = (ps.map Point.x).map gx := by
    simp [List.map_map, Function.comp_def]
  have e2' : List.map (fun q : Point => gy q.y) ps = (ps.map Point.y).map gy := by
    simp [List.map_map, Function.comp_def]
  simp only [normalizeTrack, normalizeWith, hTW, hTH, List.map_cons, List.map_map,
    Function.comp_def]
  simp only [e1', e2']
  simp only [foldl_min_map gx mgx, foldl_max_map gx mgx, foldl_min_map gy mgy,
    foldl_max_map gy mgy, hmx, hMx, hmy, hMy, hs', hfix]

theorem withinTolerance_refl (tol : ℚ) (htol : 0 ≤ tol) (ps : List Point) :
    withinTolerance tol ps ps := by
  refine ⟨rfl, ?_⟩
  intro pq hpq
  rw [List.zip_eq_zipWith, List.mem_iff_getElem] at hpq
  obtain ⟨n, hn, rfl⟩ := hpq
  simp [htol]

theorem foldl_extent (l : List ℚ) (a : ℚ) (x y : ℚ) (hx : x ∈ a :: l) (hy : y ∈ a :: l) :
    y - x ≤ l.foldl max a - l.foldl min a := by
  have h1 : l.foldl min a ≤ x := by
    rcases List.mem_cons.1 hx with rfl | hx
    · exact (foldl_min_le _ _).1
    · exact (foldl_min_le _ _).2 _ hx
  have h2 : y ≤ l.foldl max a := by
    rcases List.mem_cons.1 hy with rfl | hy
    · exact (le_foldl_max _ _).1
    · exact (le_foldl_max _ _).2 _ hy
  linarith

/-! ## Claims on `normalizeTrack` and the generators -/

/-- C2. Normalizer bounds: for a non-empty point list and integers `width`,
`height`, `padding` with `width - 2*padding ≥ 1` and `height - 2*padding ≥ 1`,
every point of `normalizeTrack(points, width, height, padding)` has
`padding ≤ x ≤ width - padding` and `padding ≤ y ≤ height - padding`. -/
theorem normalizeTrack_bounds (pts : List Point) (hne : pts ≠ []) (width height padding : ℤ)
    (hw : 1 ≤ width - 2 * padding) (hh : 1 ≤ height - 2 * padding) :
    ∀ q ∈ normalizeTrack pts (width : ℚ) (height : ℚ) (padding : ℚ),
      (padding : ℚ) ≤ q.x ∧ q.x ≤ (width : ℚ) - (padding : ℚ) ∧
      (padding : ℚ) ≤ q.y ∧ q.y ≤ (height : ℚ) - (padding : ℚ) := by
  cases pts with
  | nil => exact absurd rfl hne
  | cons p ps =>
    intro q hq
    have hwq : (1 : ℚ) ≤ (width : ℚ) - 2 * (padding : ℚ) := by exact_mod_cast hw
    have hhq : (1 : ℚ) ≤ (height : ℚ) - 2 * (padding : ℚ) := by exact_mod_cast hh
    simp only [normalizeTrack, normalizeWith, List.mem_map, max_eq_right hwq,
      max_eq_right hhq] at hq
    obtain ⟨r, hr, rfl⟩ := hq
    have hxlo : (ps.map Point.x).foldl min p.x ≤ r.x := by
      rcases List.mem_cons.1 hr with rfl | hr
      · exact (foldl_min_le _ _).1
      · exact (foldl_min_le _ _).2 _ (List.mem_map_of_mem _ hr)
    have hxhi : r.x ≤ (ps.map Point.x).foldl max p.x := by
      rcases List.mem_cons.1 hr with rfl | hr
      · exact (le_foldl_max _ _).1
      · exact (le_foldl_max _ _).2 _ (List.mem_map_of_mem _ hr)
    have hylo : (ps.map Point.y).foldl min p.y ≤ r.y := by
      rcases List.mem_cons.1 hr with rfl | hr
      · exact (foldl_min_le _ _).1
      · exact (foldl_min_le _ _).2 _ (List.mem_map_of_mem _ hr)
    have hyhi : r.y ≤ (ps.map Point.y).foldl max p.y := by
      rcases List.mem_cons.1 hr with rfl | hr
      · exact (le_foldl_max _ _).1
      · exact (le_foldl_max _ _).2 _ (List.mem_map_of_mem _ hr)
    have hDW : (0 : ℚ) < max 1 ((ps.map Point.x).foldl max p.x - (ps.map Point.x).foldl min p.x) :=
      lt_of_lt_of_le one_pos (le_max_left _ _)
    have hDH : (0 : ℚ) < max 1 ((ps.map Point.y).foldl max p.y - (ps.map Point.y).foldl min p.y) :=
      lt_of_lt_of_le one_pos (le_max_left _ _)
    have hX := fit_axis_bounds r.x _ _ _ ((width : ℚ) - 2 * (padding : ℚ))
      ((height : ℚ) - 2 * (padding : ℚ)) (padding : ℚ) hxlo hxhi (by linarith) (by linarith) hDH
    have hY := fit_axis_bounds r.y _ _ _ ((height : ℚ) - 2 * (padding : ℚ))
      ((width : ℚ) - 2 * (padding : ℚ)) (padding : ℚ) hylo hyhi (by linarith) (by linarith) hDW
    rw [min_comm] at hY
    have hXr := mathRound_bounds _ padding (width - padding) hX.1
      (by push_cast; linarith [hX.2])
    have hYr := mathRound_bounds _ padding (height - padding) hY.1
      (by push_cast; linarith [hY.2])
    push_cast at hXr hYr
    exact ⟨hXr.1, hXr.2, hYr.1, hYr.2⟩

/-- C2, at the input named by the claim: the 400-point Monza curve
normalized into 800 by 600 with padding 40 lies in `[40,760] × [40,560]`. -/
theorem normalizeTrack_bounds_witness :
    ((generateMonza 400).getD []).length = 400 ∧ (generateMonza 400).getD [] ≠ [] ∧
      (1 : ℤ) ≤ 800 - 2 * 40 ∧ (1 : ℤ) ≤ 600 - 2 * 40 ∧
      ∀ q ∈ normalizeTrack ((generateMonza 400).getD []) 800 600 40,
        (40 : ℚ) ≤ q.x ∧ q.x ≤ 760 ∧ (40 : ℚ) ≤ q.y ∧ q.y ≤ 560 := by
  obtain ⟨raw, hraw, hlen⟩ := generateMonza_length 400
  have hne : raw ≠ [] := by
    intro h
    rw [h] at hlen
    simp at hlen
  rw [hraw, Option.getD_some]
  refine ⟨hlen, hne, by decide, by decide, ?_⟩
  intro q hq
  have h := normalizeTrack_bounds raw hne 800 600 40 (by decide) (by decide) q
    (by simpa using hq)
  norm_num at h
  exact h

/-- C5. Curve generator cardinality: each of `generateMonza`,
`generateSilverstone` and `generateSpa` (ten anchors, ten spans) returns,
without failing, exactly `N` points for every sample count `N`, in
particular for every `N ≥ 30`. -/
theorem generators_cardinality (sin cos : ℚ → ℚ) (N : ℕ) :
    (∃ out, generateMonza N = some out ∧ out.length = N) ∧
    (∃ out, generateSilverstone sin cos N = some out ∧ out.length = N) ∧
    (∃ out, generateSpa sin cos N = some out ∧ out.length = N) :=
  ⟨generate_length monzaAnchors rfl _ N, generate_length silverstoneAnchors rfl _ N,
    generate_length spaAnchors rfl _ N⟩

/-- C6, as stated, fails.  The horizontal pair `(0,0), (10,0)` normalized
into 800 by 600 with padding 40 gives `y = 264`, and normalizing that again
gives `y = 300`; with a non-integral rectangle (`1` by `1.5`, padding `0`) the
pair `(0,0), (2,1)` moves by a whole pixel as well. -/
theorem normalizeTrack_not_idempotent :
    normalizeTrack [⟨0, 0⟩, ⟨10, 0⟩] 800 600 40 = [⟨40, 264⟩, ⟨760, 264⟩] ∧
    normalizeTrack (normalizeTrack [⟨0, 0⟩, ⟨10, 0⟩] 800 600 40) 800 600 40
      = [⟨40, 300⟩, ⟨760, 300⟩] ∧
    ¬ withinTolerance 0.000001
        (normalizeTrack (normalizeTrack [⟨0, 0⟩, ⟨10, 0⟩] 800 600 40) 800 600 40)
        (normalizeTrack [⟨0, 0⟩, ⟨10, 0⟩] 800 600 40) ∧
    normalizeTrack [⟨0, 0⟩, ⟨2, 1⟩] 1 1.5 0 = [⟨0, 1⟩, ⟨1, 1⟩] ∧
    normalizeTrack (normalizeTrack [⟨0, 0⟩, ⟨2, 1⟩] 1 1.5 0) 1 1.5 0 = [⟨0, 0⟩, ⟨1, 0⟩] ∧
    ¬ withinTolerance 0.000001
        (normalizeTrack (normalizeTrack [⟨0, 0⟩, ⟨2, 1⟩] 1 1.5 0) 1 1.5 0)
        (normalizeTrack [⟨0, 0⟩, ⟨2, 1⟩] 1 1.5 0) :=
  ⟨by decide!, by decide!, by decide!, by decide!, by decide!, by decide!⟩

/-- C6, amended.  Normalizer idempotence: for integers `width`, `height`,
`padding` and every point list whose bounding box is at least `1` wide and at
least `1` high, normalizing the output of `normalizeTrack` again against the
same rectangle returns it unchanged, so no coordinate moves by more than
`1e-6`. -/
theorem normalizeTrack_idempotent (pts : List Point) (width height padding : ℤ)
    (hx : ∃ a ∈ pts, ∃ b ∈ pts, 1 ≤ b.x - a.x) (hy : ∃ a ∈ pts, ∃ b ∈ pts, 1 ≤ b.y - a.y) :
    normalizeTrack (normalizeTrack pts width height padding) width height padding
      = normalizeTrack pts width height padding ∧
    withinTolerance 0.000001
      (normalizeTrack (normalizeTrack pts width height padding) width height padding)
      (normalizeTrack pts width height padding) := by
  have key : normalizeTrack (normalizeTrack pts width height padding) width height padding
      = normalizeTrack pts width height padding := by
    cases pts with
    | nil => rfl
    | cons p ps =>
      obtain ⟨a, ha, b, hb, hab⟩ := hx
      obtain ⟨c, hc, d, hd, hcd⟩ := hy
      have mem : ∀ (f : Point → ℚ) (q : Point), q ∈ p :: ps → f q ∈ f p :: ps.map f := by
        intro f q hq
        rcases List.mem_cons.1 hq with rfl | hq
        · exact List.mem_cons_self _ _
        · exact List.mem_cons_of_mem _ (List.mem_map_of_mem _ hq)
      exact normalizeWith_round_fixed p ps width height padding
        (le_trans hab (foldl_extent _ _ _ _ (mem Point.x a ha) (mem Point.x b hb)))
        (le_trans hcd (foldl_extent _ _ _ _ (mem Point.y c hc) (mem Point.y d hd)))
  refine ⟨key, ?_⟩
  rw [key]
  exact withinTolerance_refl _ (by norm_num) _

/-- C6 amended, at a concrete input: the pair `(0,0), (3,4)` into 800 by 600
with padding 40. -/
theorem normalizeTrack_idempotent_witness :
    (∃ a ∈ [(⟨0, 0⟩ : Point), ⟨3, 4⟩], ∃ b ∈ [(⟨0, 0⟩ : Point), ⟨3, 4⟩], 1 ≤ b.x - a.x) ∧
    (∃ a ∈ [(⟨0, 0⟩ : Point), ⟨3, 4⟩], ∃ b ∈ [(⟨0, 0⟩ : Point), ⟨3, 4⟩], 1 ≤ b.y - a.y) ∧
    normalizeTrack (normalizeTrack [⟨0, 0⟩, ⟨3, 4⟩] ((800 : ℤ) : ℚ) ((600 : ℤ) : ℚ) ((40 : ℤ) : ℚ))
        ((800 : ℤ) : ℚ) ((600 : ℤ) : ℚ) ((40 : ℤ) : ℚ)
      = normalizeTrack [⟨0, 0⟩, ⟨3, 4⟩] ((800 : ℤ) : ℚ) ((600 : ℤ) : ℚ) ((40 : ℤ) : ℚ) ∧
    normalizeTrack [⟨0, 0⟩, ⟨3, 4⟩] 800 600 40 = [⟨205, 40⟩, ⟨595, 560⟩] :=
  ⟨⟨⟨0, 0⟩, by simp, ⟨3, 4⟩, by simp, by norm_num⟩,
    ⟨⟨0, 0⟩, by simp, ⟨3, 4⟩, by simp, by norm_num⟩,
    (normalizeTrack_idempotent [⟨0, 0⟩, ⟨3, 4⟩] 800 600 40
      ⟨⟨0, 0⟩, by simp, ⟨3, 4⟩, by simp, by norm_num⟩
      ⟨⟨0, 0⟩, by simp, ⟨3, 4⟩, by simp, by norm_num⟩).1,
    by decide!⟩

/-! ## Lemmas on the lap detector and the driver -/

theorem lapEffect_prev (b : Bool) (refs : LapRefs) (cur now : ℚ) :
    (lapEffect b refs cur now).1.prevProgress = cur := by
  unfold lapEffect
  simp only
  split_ifs <;> rfl

theorem lapEffect_fires (refs : LapRefs) (cur now : ℚ) :
    ((lapEffect true refs cur now).2.isSome ↔ refs.prevProgress > 0.9 ∧ cur < 0.1) ∧
    ∀ ev, (lapEffect true refs cur now).2 = some ev → ev.progress = cur := by
  unfold lapEffect
  simp only
  split_ifs with h
  · refine ⟨by simpa using h, ?_⟩
    intro ev hev
    simp only [if_true, Option.some.injEq] at hev
    rw [← hev]
  · refine ⟨by simpa using h, ?_⟩
    intro ev hev
    cases hev

theorem lapRun_length (b : Bool) : ∀ (refs : LapRefs) (obs : List (ℚ × ℚ)),
    (lapRun b refs obs).length = obs.length
  | _, [] => rfl
  | refs, (cur, now) :: rest => by
    rw [lapRun, List.length_cons, List.length_cons, lapRun_length b _ rest]

theorem lapRun_succ : ∀ (refs : LapRefs) (obs : List (ℚ × ℚ)) (i : ℕ) (pr c : ℚ × ℚ),
    obs[i]? = some pr → obs[i + 1]? = some c →
    ∃ e, (lapRun true refs obs)[i + 1]? = some e ∧
      (e.isSome ↔ pr.1 > 0.9 ∧ c.1 < 0.1) ∧ ∀ ev, e = some ev → ev.progress = c.1
  | _, [], _, _, _, h, _ => by simp at h
  | refs, (cur, now) :: rest, 0, pr, c, h0, h1 => by
    simp only [List.getElem?_cons_zero, Option.some.injEq] at h0
    subst h0
    rw [List.getElem?_cons_succ] at h1
    match rest, h1 with
    | (c1, n1) :: rest', h1 =>
      simp only [List.getElem?_cons_zero, Option.some.injEq] at h1
      subst h1
      refine ⟨(lapEffect true (lapEffect true refs cur now).1 c1 n1).2, ?_, ?_⟩
      · simp [lapRun]
      · have := lapEffect_fires (lapEffect true refs cur now).1 c1 n1
        rw [lapEffect_prev] at this
        exact this
  | refs, (cur, now) :: rest, i + 1, pr, c, h0, h1 => by
    rw [List.getElem?_cons_succ] at h0 h1
    obtain ⟨e, he, hiff⟩ := lapRun_succ (lapEffect true refs cur now).1 rest i pr c h0 h1
    exact ⟨e, by rw [lapRun, List.getElem?_cons_succ]; exact he, hiff⟩

theorem lapRun_times : ∀ (refs : LapRefs) (obs : List (ℚ × ℚ)),
    (∀ o ∈ obs, o.2 ≠ 0) → (∀ ts, refs.lapTimestamp = some ts → ts ≠ 0) →
    ((lapRun true refs obs).filterMap id).map LapEvent.lapTimeSeconds
      = lapTimesSpec refs.lapTimestamp (wrapTimes refs.prevProgress obs)
  | _, [], _, _ => rfl
  | refs, (cur, now) :: rest, hobs, hts => by
    have hrest : ∀ o ∈ rest, o.2 ≠ 0 := fun o ho => hobs o (List.mem_cons_of_mem _ ho)
    have hnow : now ≠ 0 := hobs (cur, now) (List.mem_cons_self _ _)
    rw [lapRun, wrapTimes]
    by_cases h : refs.prevProgress > 0.9 ∧ cur < 0.1
    · have e1 : lapEffect true refs cur now =
          ({ prevProgress := cur, lapTimestamp := some now },
            some { lapTimeSeconds := refs.lapTimestamp.map (fun ts => (now - ts) / 1000),
                   progress := cur }) := by
        unfold lapEffect
        simp only [if_pos h, if_true]
        cases hl : refs.lapTimestamp with
        | none => rfl
        | some ts => simp [hts ts hl]
      rw [e1, if_pos h]
      have ih := lapRun_times { prevProgress := cur, lapTimestamp := some now } rest hrest
        (by intro ts hts'; simp only [Option.some.injEq] at hts'; rw [← hts']; exact hnow)
      simp only [List.filterMap_cons, id, List.map_cons, lapTimesSpec, ih]
    · have e1 : lapEffect true refs cur now =
          ({ prevProgress := cur, lapTimestamp := refs.lapTimestamp }, none) := by
        unfold lapEffect
        simp only [if_neg h]
      rw [e1, if_neg h]
      have ih := lapRun_times { prevProgress := cur, lapTimestamp := refs.lapTimestamp } rest
        hrest hts
      simp only [List.filterMap_cons, id, ih]

theorem tickUpdate_eq_fract (speed dt prev : ℚ) (hs : 0 ≤ speed) (hdt : 0 ≤ dt)
    (hp0 : 0 ≤ prev) :
    tickUpdate speed dt prev = Int.fract (prev + speed * (dt / (1000 / 60))) := by
  have hadv : 0 ≤ speed * (dt / (1000 / 60)) := mul_nonneg hs (div_nonneg hdt (by norm_num))
  unfold tickUpdate mathFloor
  simp only
  split_ifs with h
  · rfl
  · rw [Int.fract_eq_self.2 ⟨by linarith, lt_of_not_ge h⟩]

theorem runSteps_fract (speed : ℚ) (hs : 0 ≤ speed) : ∀ (dts : List ℚ) (last p0 : ℚ),
    (∀ dt ∈ dts, 0 ≤ dt) → 0 ≤ p0 → p0 < 1 →
    (runSteps speed { last := last, carProgress := p0 } (timestamps last dts)).carProgress
      = Int.fract (p0 + speed * (dts.sum / (1000 / 60)))
  | [], last, p0, _, h0, h1 => by
    simp only [runSteps, timestamps, List.foldl_nil, List.sum_nil, zero_div, mul_zero, add_zero]
    exact (Int.fract_eq_self.2 ⟨h0, h1⟩).symm
  | dt :: rest, last, p0, hd, h0, h1 => by
    have hdt : 0 ≤ dt := hd dt (List.mem_cons_self _ _)
    have hrest : ∀ d ∈ rest, 0 ≤ d := fun d hd' => hd d (List.mem_cons_of_mem _ hd')
    have hstep : step speed { last := last, carProgress := p0 } (last + dt)
        = { last := last + dt
            carProgress := Int.fract (p0 + speed * (dt / (1000 / 60))) } := by
      unfold step
      simp only [add_sub_cancel_left, tickUpdate_eq_fract speed dt p0 hs hdt h0]
    have ih := runSteps_fract speed hs rest (last + dt)
      (Int.fract (p0 + speed * (dt / (1000 / 60)))) hrest (Int.fract_nonneg _)
      (Int.fract_lt_one _)
    unfold runSteps at ih ⊢
    rw [timestamps, List.foldl_cons, hstep, ih]
    have e : Int.fract (p0 + speed * (dt / (1000 / 60))) + speed * (rest.sum / (1000 / 60))
        = (p0 + speed * ((dt :: rest).sum / (1000 / 60)))
          - ((⌊p0 + speed * (dt / (1000 / 60))⌋ : ℤ) : ℚ) := by
      rw [List.sum_cons, Int.fract]
      ring
    rw [e, Int.fract_sub_int]

theorem lapTimesSpec_length : ∀ (prev : Option ℚ) (nows : List ℚ),
    (lapTimesSpec prev nows).length = nows.length
  | _, [] => rfl
  | prev, now :: rest => by
    rw [lapTimesSpec, List.length_cons, List.length_cons, lapTimesSpec_length _ rest]

theorem lapTimesSpec_succ : ∀ (prev : Option ℚ) (nows : List ℚ) (k : ℕ) (a b : ℚ),
    nows[k]? = some a → nows[k + 1]? = some b →
    (lapTimesSpec prev nows)[k + 1]? = some (some ((b - a) / 1000))
  | _, [], _, _, _, h, _ => by simp at h
  | prev, now :: rest, 0, a, b, h0, h1 => by
    simp only [List.getElem?_cons_zero, Option.some.injEq] at h0
    subst h0
    rw [List.getElem?_cons_succ] at h1
    match rest, h1 with
    | n1 :: rest', h1 =>
      simp only [List.getElem?_cons_zero, Option.some.injEq] at h1
      subst h1
      simp [lapTimesSpec]
  | prev, now :: rest, k + 1, a, b, h0, h1 => by
    rw [List.getElem?_cons_succ] at h0 h1
    rw [lapTimesSpec, List.getElem?_cons_succ]
    exact lapTimesSpec_succ (some now) rest k a b h0 h1

theorem lapDetector_times (obs : List (ℚ × ℚ)) (hts : ∀ o ∈ obs, o.2 ≠ 0) :
    ((lapDetector true obs).filterMap id).map LapEvent.lapTimeSeconds
      = lapTimesSpec none (wrapTimesOf obs) := by
  cases obs with
  | nil => rfl
  | cons o rest =>
    obtain ⟨c0, n0⟩ := o
    exact lapRun_times { prevProgress := c0, lapTimestamp := none } ((c0, n0) :: rest) hts
      (by intro ts h; cases h)

/-! ## Claims on the lap detector and the progress driver -/

/-- C7. Lap detection condition: over every sequence of observations the
detector (given a function `onLap`) produces one result for each
observation, nothing at the first one (its previous value is itself), and at
every later observation it calls `onLap` exactly when the previous progress is above `0.9` and the current one
below `0.1`, passing the current progress.  On `[0.95, 0.97, 0.99, 0.02, 0.05]`
it fires exactly once, at `0.99 → 0.02`, with progress `0.02` and no lap time. -/
theorem lapDetector_fires_iff :
    (∀ obs : List (ℚ × ℚ),
      (lapDetector true obs).length = obs.length ∧
      (∀ c, obs[0]? = some c → (lapDetector true obs)[0]? = some none) ∧
      (∀ (i : ℕ) (pr c : ℚ × ℚ), obs[i]? = some pr → obs[i + 1]? = some c →
        ∃ e, (lapDetector true obs)[i + 1]? = some e ∧
          (e.isSome ↔ pr.1 > 0.9 ∧ c.1 < 0.1) ∧ ∀ ev, e = some ev → ev.progress = c.1)) ∧
    (∀ n0 n1 n2 n3 n4 : ℚ,
      lapDetector true [(0.95, n0), (0.97, n1), (0.99, n2), (0.02, n3), (0.05, n4)]
        = [none, none, none, some { lapTimeSeconds := none, progress := 0.02 }, none]) := by
  refine ⟨?_, ?_⟩
  · intro obs
    cases obs with
    | nil => simp [lapDetector]
    | cons o rest =>
      obtain ⟨c0, n0⟩ := o
      refine ⟨lapRun_length _ _ _, ?_, ?_⟩
      · intro c _
        have hno : ¬ (c0 > 0.9 ∧ c0 < 0.1) := by
          rintro ⟨h1, h2⟩
          norm_num at h1 h2
          linarith
        simp [lapDetector, lapRun, lapEffect, hno]
      · intro i pr c h0 h1
        exact lapRun_succ _ _ i pr c h0 h1
  · intro n0 n1 n2 n3 n4
    norm_num [lapDetector, lapRun, lapEffect]

/-- C7, at a concrete input: the observation `0.02` after `0.99`. -/
theorem lapDetector_fires_iff_witness :
    [((0.95 : ℚ), (1 : ℚ)), (0.97, 2), (0.99, 3), (0.02, 4), (0.05, 5)][2]?
      = some ((0.99 : ℚ), (3 : ℚ)) ∧
    [((0.95 : ℚ), (1 : ℚ)), (0.97, 2), (0.99, 3), (0.02, 4), (0.05, 5)][2 + 1]?
      = some ((0.02 : ℚ), (4 : ℚ)) ∧
    ∃ e, (lapDetector true [(0.95, 1), (0.97, 2), (0.99, 3), (0.02, 4), (0.05, 5)])[2 + 1]?
        = some e ∧
      (e.isSome ↔ ((0.99 : ℚ), (3 : ℚ)).1 > 0.9 ∧ ((0.02 : ℚ), (4 : ℚ)).1 < 0.1) ∧
      ∀ ev, e = some ev → ev.progress = ((0.02 : ℚ), (4 : ℚ)).1 :=
  ⟨by rfl, by rfl,
    (lapDetector_fires_iff.1 [(0.95, 1), (0.97, 2), (0.99, 3), (0.02, 4), (0.05, 5)]).2.2
      2 (0.99, 3) (0.02, 4) (by rfl) (by rfl)⟩

/-- C8. Lap time emission: over every sequence of observations whose
timestamps are non-zero (values of `performance.now()`), the detector emits
one event for each wrap; the first event has `lapTimeSeconds = null` and the
event of every later wrap `k` has `(now_k - now_{k-1}) / 1000`. -/
theorem lapDetector_lap_times (obs : List (ℚ × ℚ)) (hts : ∀ o ∈ obs, o.2 ≠ 0) :
    ((lapDetector true obs).filterMap id).length = (wrapTimesOf obs).length ∧
    (∀ ev, ((lapDetector true obs).filterMap id)[0]? = some ev → ev.lapTimeSeconds = none) ∧
    (∀ (k : ℕ) (ev : LapEvent) (a b : ℚ),
      ((lapDetector true obs).filterMap id)[k + 1]? = some ev →
      (wrapTimesOf obs)[k]? = some a → (wrapTimesOf obs)[k + 1]? = some b →
      ev.lapTimeSeconds = some ((b - a) / 1000)) := by
  have key := lapDetector_times obs hts
  refine ⟨?_, ?_, ?_⟩
  · have := congrArg List.length key
    rwa [List.length_map, lapTimesSpec_length] at this
  · intro ev hev
    have h1 : (((lapDetector true obs).filterMap id).map LapEvent.lapTimeSeconds)[0]?
        = some ev.lapTimeSeconds := by
      rw [List.getElem?_map, hev]; rfl
    rw [key] at h1
    cases hw : wrapTimesOf obs with
    | nil => rw [hw] at h1; simp [lapTimesSpec] at h1
    | cons n rest =>
      rw [hw] at h1
      simp only [lapTimesSpec, Option.map_none', List.getElem?_cons_zero,
        Option.some.injEq] at h1
      exact h1.symm
  · intro k ev a b hev ha hb
    have h1 : (((lapDetector true obs).filterMap id).map LapEvent.lapTimeSeconds)[k + 1]?
        = some ev.lapTimeSeconds := by
      rw [List.getElem?_map, hev]; rfl
    rw [key, lapTimesSpec_succ none _ k a b ha hb, Option.some.injEq] at h1
    exact h1.symm

/-- C8, at a concrete input: two wraps `12300` ms apart emit `null` and then
`12.3`. -/
theorem lapDetector_lap_times_witness :
    (∀ o ∈ twoWraps, o.2 ≠ 0) ∧
    (((lapDetector true twoWraps).filterMap id).length = (wrapTimesOf twoWraps).length ∧
      (∀ ev, ((lapDetector true twoWraps).filterMap id)[0]? = some ev →
        ev.lapTimeSeconds = none) ∧
      (∀ (k : ℕ) (ev : LapEvent) (a b : ℚ),
        ((lapDetector true twoWraps).filterMap id)[k + 1]? = some ev →
        (wrapTimesOf twoWraps)[k]? = some a → (wrapTimesOf twoWraps)[k + 1]? = some b →
        ev.lapTimeSeconds = some ((b - a) / 1000))) ∧
    wrapTimesOf twoWraps = [2000, 14300] ∧
    lapDetector true twoWraps =
      [none, some { lapTimeSeconds := none, progress := 0.02 }, none, none,
        some { lapTimeSeconds := some 12.3, progress := 0.03 }] :=
  ⟨by decide!, lapDetector_lap_times twoWraps (by decide!), by decide!, by decide!⟩

/-- C9. Progress range invariant: for a positive speed, one tick from a
progress in `[0,1)` after a non-negative elapsed time yields a progress in
`[0,1)`, and so does every sequence of ticks started from progress `0`. -/
theorem progress_range (speed : ℚ) (hs : 0 < speed) :
    (∀ prev dt : ℚ, 0 ≤ prev → prev < 1 → 0 ≤ dt →
      0 ≤ tickUpdate speed dt prev ∧ tickUpdate speed dt prev < 1) ∧
    (∀ (last : ℚ) (dts : List ℚ), (∀ dt ∈ dts, 0 ≤ dt) →
      0 ≤ (runSteps speed { last := last, carProgress := 0 } (timestamps last dts)).carProgress ∧
      (runSteps speed { last := last, carProgress := 0 } (timestamps last dts)).carProgress < 1) := by
  refine ⟨?_, ?_⟩
  · intro prev dt h0 _ hdt
    rw [tickUpdate_eq_fract speed dt prev (le_of_lt hs) hdt h0]
    exact ⟨Int.fract_nonneg _, Int.fract_lt_one _⟩
  · intro last dts hd
    rw [runSteps_fract speed (le_of_lt hs) dts last 0 hd le_rfl one_pos]
    exact ⟨Int.fract_nonneg _, Int.fract_lt_one _⟩

/-- C9, at a concrete input: speed `0.0006`, progress `0.99`, one tick of a
whole second. -/
theorem progress_range_witness :
    (0 : ℚ) < 0.0006 ∧ (0 : ℚ) ≤ 0.99 ∧ (0.99 : ℚ) < 1 ∧ (0 : ℚ) ≤ 1000 ∧
    0 ≤ tickUpdate 0.0006 1000 0.99 ∧ tickUpdate 0.0006 1000 0.99 < 1 :=
  ⟨by norm_num, by norm_num, by norm_num, by norm_num,
    (progress_range 0.0006 (by norm_num)).1 0.99 1000 (by norm_num) (by norm_num)
      (by norm_num)⟩

/-- C10. Frame-rate independence of the driver: for a positive speed, a
start progress `p0` in `[0,1)` and non-negative tick intervals `dts`, the
progress after the ticks is `frac(p0 + SPEED * T / (1000/60))` with `T` the
sum of the intervals, however `T` is split.  With base speed `0.0006`, all
factors `1` and 60 ticks over 1000 ms from progress `0`, the progress is
`0.036`. -/
theorem driver_frame_rate_independent :
    (∀ (speed p0 last : ℚ) (dts : List ℚ), 0 < speed → 0 ≤ p0 → p0 < 1 →
      (∀ dt ∈ dts, 0 ≤ dt) →
      (runSteps speed { last := last, carProgress := p0 } (timestamps last dts)).carProgress
        = Int.fract (p0 + speed * dts.sum / (1000 / 60))) ∧
    SPEED "medium" "Race" 5 (difficultyFactor "Normal") = 0.0006 ∧
    (runSteps (SPEED "medium" "Race" 5 (difficultyFactor "Normal"))
      { last := 0, carProgress := 0 }
      (timestamps 0 (List.replicate 60 (1000 / 60)))).carProgress = 0.036 := by
  have hspeed : SPEED "medium" "Race" 5 (difficultyFactor "Normal") = 0.0006 := by
    decide!
  refine ⟨?_, hspeed, ?_⟩
  · intro speed p0 last dts hs h0 h1 hd
    rw [runSteps_fract speed (le_of_lt hs) dts last p0 hd h0 h1, mul_div_assoc]
  · rw [hspeed, runSteps_fract 0.0006 (by norm_num) _ 0 0
      (by intro dt hdt; rw [List.eq_of_mem_replicate hdt]; norm_num) le_rfl one_pos]
    rw [List.sum_replicate, Int.fract_eq_iff]
    refine ⟨by norm_num, by norm_num, 0, by norm_num⟩

/-- C10, at a concrete input: one second from progress `1/2` at speed `1/100`,
as a single tick of `1000` ms or as ticks of `400` and `600` ms. -/
theorem driver_frame_rate_independent_witness :
    (0 : ℚ) < 1 / 100 ∧ (0 : ℚ) ≤ 1 / 2 ∧ (1 / 2 : ℚ) < 1 ∧
    (∀ dt ∈ [(400 : ℚ), 600], 0 ≤ dt) ∧
    (runSteps (1 / 100) { last := 0, carProgress := 1 / 2 }
        (timestamps 0 [400, 600])).carProgress
      = Int.fract (1 / 2 + 1 / 100 * [(400 : ℚ), 600].sum / (1000 / 60)) :=
  ⟨by norm_num, by norm_num, by norm_num, by norm_num,
    driver_frame_rate_independent.1 (1 / 100) (1 / 2) 0 [400, 600] (by norm_num) (by norm_num)
      (by norm_num) (by norm_num)⟩

/-! ## Lemmas on the shape of a resolved sample -/

theorem buildSegs_length (hypot : ℚ → ℚ → ℚ) :
    ∀ pts : List Point, (buildSegs hypot pts).length = pts.length - 1
  | [] => rfl
  | [_] => rfl
  | a :: b :: rest => by
    rw [buildSegs_cons_cons, List.length_cons, buildSegs_length hypot (b :: rest)]
    simp

/-- The sample of a path of at least two points, spelled out: the segment
`k` it lies on, the length before that segment, and the record returned. -/
theorem getPositionOnTrack_sample (hypot : ℚ → ℚ → ℚ) (hh : ∀ dx dy, 0 ≤ hypot dx dy)
    (pts : List Point) (hn : 2 ≤ pts.length) (t : ℚ) :
    ∃ (k : ℕ) (seg : Segment), (buildSegs hypot pts)[k]? = some seg ∧ 0 < seg.len ∧
      (((buildSegs hypot pts).take k).map Segment.len).sum
        ≤ Int.fract t * totalLen (buildSegs hypot pts) ∧
      Int.fract t * totalLen (buildSegs hypot pts)
        ≤ (((buildSegs hypot pts).take k).map Segment.len).sum + seg.len ∧
      (∀ j, j < k → (((buildSegs hypot pts).take (j + 1)).map Segment.len).sum
        < Int.fract t * totalLen (buildSegs hypot pts)) ∧
      getPositionOnTrack hypot pts t =
        { x := seg.a.x + (seg.b.x - seg.a.x) *
            ((Int.fract t * totalLen (buildSegs hypot pts)
              - (((buildSegs hypot pts).take k).map Segment.len).sum) / seg.len)
          y := seg.a.y + (seg.b.y - seg.a.y) *
            ((Int.fract t * totalLen (buildSegs hypot pts)
              - (((buildSegs hypot pts).take k).map Segment.len).sum) / seg.len)
          segmentIndex := some (k : ℤ)
          localT := some ((Int.fract t * totalLen (buildSegs hypot pts)
              - (((buildSegs hypot pts).take k).map Segment.len).sum) / seg.len) } := by
  obtain ⟨hpos, hres⟩ := getPositionOnTrack_scan hypot hh pts hn t
  have hne : buildSegs hypot pts ≠ [] := by
    intro h
    rw [h] at hpos
    simp [totalLen] at hpos
  have hT0 : 0 ≤ Int.fract t * totalLen (buildSegs hypot pts) :=
    mul_nonneg (Int.fract_nonneg t) (le_of_lt hpos)
  have hT : Int.fract t * totalLen (buildSegs hypot pts)
      ≤ 0 + ((buildSegs hypot pts).map Segment.len).sum := by
    rw [zero_add, ← totalLen_eq_sum]
    have := Int.fract_lt_one t
    nlinarith [Int.fract_nonneg t]
  obtain ⟨k, seg, hk, hle, hfirst, hscan⟩ := scan_spec _ _ 0 0 hT hne
  rw [hres, Option.some.injEq] at hscan
  simp only [zero_add] at hle hfirst hscan
  refine ⟨k, seg, hk, buildSegs_len_pos hypot hh pts seg (List.getElem?_mem hk), ?_, hle,
    hfirst, hscan⟩
  cases k with
  | zero => simpa using hT0
  | succ j => exact le_of_lt (hfirst j (Nat.lt_succ_self j))

theorem markerScan_toPosition (atan2 : ℚ → ℚ → ℚ) (T : ℚ) :
    ∀ (segs : List Segment) (acc : ℚ) (i : ℕ),
      (markerScan atan2 T segs acc i).map Marker.toPosition = scan T segs acc i
  | [], _, _ => rfl
  | s :: rest, acc, i => by
    rw [markerScan, scan]
    split_ifs with h
    · rfl
    · exact markerScan_toPosition atan2 T rest (acc + s.len) (i + 1)

/-- On a path of at least two points the marker of `CanvasPlaceholder` and
`getPositionOnTrack` compute the same position, segment and local parameter. -/
theorem marker_toPosition (hypot atan2 : ℚ → ℚ → ℚ) (hh : ∀ dx dy, 0 ≤ hypot dx dy)
    (pts : List Point) (hn : 2 ≤ pts.length) (width height t : ℚ) :
    (marker hypot atan2 pts width height t).toPosition = getPositionOnTrack hypot pts t := by
  obtain ⟨hpos, hres⟩ := getPositionOnTrack_scan hypot hh pts hn t
  have hlen : (buildSegs hypot pts).length ≠ 0 := by
    rw [buildSegs_length]; omega
  have hinfo : segInfo hypot pts = (buildSegs hypot pts, totalLen (buildSegs hypot pts)) := by
    unfold segInfo
    rw [if_neg (by omega)]
  have hm := markerScan_toPosition atan2 (Int.fract t * totalLen (buildSegs hypot pts))
    (buildSegs hypot pts) 0 0
  rw [hres] at hm
  cases hms : markerScan atan2 (Int.fract t * totalLen (buildSegs hypot pts))
      (buildSegs hypot pts) 0 0 with
  | none => rw [hms] at hm; cases hm
  | some m =>
    rw [hms, Option.map_some', Option.some.injEq] at hm
    unfold marker
    simp only [hinfo, wrapProgress_eq_fract, hms]
    rw [if_neg (by
      rintro (h | h)
      · exact hlen h
      · exact absurd hpos (not_lt.2 h))]
    exact hm

/-! ## Claims on degenerate paths and well-formed samples -/

/-- C12. Degenerate path: for fewer than two points the path index has no
segments and total length `0`; for a single point the marker of
`CanvasPlaceholder` is that point with angle `0`, and `getPositionOnTrack`
returns that point with `segmentIndex = 0` and `localT = 0`, for every
progress. -/
theorem degenerate_path (hypot atan2 : ℚ → ℚ → ℚ) :
    (∀ pts : List Point, pts.length < 2 →
      segInfo hypot pts = ([], 0) ∧ buildSegs hypot pts = [] ∧
        totalLen (buildSegs hypot pts) = 0) ∧
    (∀ (p : Point) (width height t : ℚ),
      marker hypot atan2 [p] width height t =
        { x := p.x, y := p.y, angle := 0, segmentIndex := none, localT := none }) ∧
    (∀ (p : Point) (t : ℚ),
      getPositionOnTrack hypot [p] t =
        { x := p.x, y := p.y, segmentIndex := some 0, localT := some 0 }) := by
  refine ⟨?_, ?_, ?_⟩
  · intro pts hlt
    have hb : buildSegs hypot pts = [] := by
      match pts, hlt with
      | [], _ => rfl
      | [_], _ => rfl
    refine ⟨?_, hb, by rw [hb]; rfl⟩
    unfold segInfo
    rw [if_pos hlt]
  · intro p width height t
    simp [marker, segInfo]
  · intro p t
    simp [getPositionOnTrack, buildSegs, totalLen]

/-- C12, at a concrete input: the single point `(1, 2)`. -/
theorem degenerate_path_witness :
    [(⟨1, 2⟩ : Point)].length < 2 ∧
    (segInfo hypotQ [⟨1, 2⟩] = ([], 0) ∧ buildSegs hypotQ [⟨1, 2⟩] = [] ∧
      totalLen (buildSegs hypotQ [⟨1, 2⟩]) = 0) :=
  ⟨by decide, (degenerate_path hypotQ (fun _ _ => 0)).1 [⟨1, 2⟩] (by decide)⟩

/-- C13. Well-formed sample: for a list of `n ≥ 2` points and every progress,
the sample of `getPositionOnTrack` has `0 ≤ segmentIndex ≤ n - 2` and
`0 ≤ localT ≤ 1`. -/
theorem getPositionOnTrack_well_formed (hypot : ℚ → ℚ → ℚ) (hh : ∀ dx dy, 0 ≤ hypot dx dy)
    (pts : List Point) (hn : 2 ≤ pts.length) (t : ℚ) :
    ∃ (i : ℤ) (l : ℚ),
      (getPositionOnTrack hypot pts t).segmentIndex = some i ∧
      (getPositionOnTrack hypot pts t).localT = some l ∧
      0 ≤ i ∧ i ≤ (pts.length : ℤ) - 2 ∧ 0 ≤ l ∧ l ≤ 1 := by
  obtain ⟨k, seg, hk, hlen, hlo, hhi, _, hres⟩ := getPositionOnTrack_sample hypot hh pts hn t
  have hkl : k < (buildSegs hypot pts).length := by
    by_contra hge
    rw [List.getElem?_eq_none (not_lt.1 hge)] at hk
    cases hk
  rw [buildSegs_length] at hkl
  refine ⟨(k : ℤ), _, by rw [hres], by rw [hres], Int.natCast_nonneg k, by omega, ?_, ?_⟩
  · exact div_nonneg (by linarith) (le_of_lt hlen)
  · rw [div_le_one hlen]
    linarith

/-- C13, at a concrete input: the path `(0,0) → (3,4) → (3,10)` at progress
`1/2`. -/
theorem getPositionOnTrack_well_formed_witness :
    (∀ dx dy, 0 ≤ hypotQ dx dy) ∧ 2 ≤ [(⟨0, 0⟩ : Point), ⟨3, 4⟩, ⟨3, 10⟩].length ∧
    ∃ (i : ℤ) (l : ℚ),
      (getPositionOnTrack hypotQ [⟨0, 0⟩, ⟨3, 4⟩, ⟨3, 10⟩] (1 / 2)).segmentIndex = some i ∧
      (getPositionOnTrack hypotQ [⟨0, 0⟩, ⟨3, 4⟩, ⟨3, 10⟩] (1 / 2)).localT = some l ∧
      0 ≤ i ∧ i ≤ ([(⟨0, 0⟩ : Point), ⟨3, 4⟩, ⟨3, 10⟩].length : ℤ) - 2 ∧ 0 ≤ l ∧ l ≤ 1 :=
  ⟨hypotQ_nonneg, by decide,
    getPositionOnTrack_well_formed hypotQ hypotQ_nonneg [⟨0, 0⟩, ⟨3, 4⟩, ⟨3, 10⟩] (by decide)
      (1 / 2)⟩

/-- C11, as stated, fails.  For the empty list `getPositionOnTrack` returns
`{ x: 0, y: 0 }` with neither `segmentIndex` nor `localT`, and for the empty
list and for a single point the marker of `CanvasPlaceholder` is
`{ x, y, angle: 0 }`, without them as well. -/
theorem resolution_sample_incomplete :
    getPositionOnTrack hypotQ [] 0 = { x := 0, y := 0, segmentIndex := none, localT := none } ∧
    ¬ (∃ (i : ℤ) (l : ℚ), (getPositionOnTrack hypotQ [] 0).segmentIndex = some i ∧
        (getPositionOnTrack hypotQ [] 0).localT = some l ∧ 0 ≤ l ∧ l ≤ 1) ∧
    marker hypotQ (fun _ _ => 0) [] 800 420 0 =
      { x := 400, y := 210, angle := 0, segmentIndex := none, localT := none } ∧
    marker hypotQ (fun _ _ => 0) [⟨1, 2⟩] 800 420 0 =
      { x := 1, y := 2, angle := 0, segmentIndex := none, localT := none } ∧
    ¬ (∃ (i : ℤ) (l : ℚ),
        (marker hypotQ (fun _ _ => 0) [⟨1, 2⟩] 800 420 0).segmentIndex = some i ∧
        (marker hypotQ (fun _ _ => 0) [⟨1, 2⟩] 800 420 0).localT = some l ∧ 0 ≤ l ∧ l ≤ 1) := by
  have h1 : getPositionOnTrack hypotQ [] 0
      = { x := 0, y := 0, segmentIndex := none, localT := none } := rfl
  have h2 : marker hypotQ (fun _ _ => 0) [] 800 420 0
      = { x := 400, y := 210, angle := 0, segmentIndex := none, localT := none } := by
    decide!
  have h3 : marker hypotQ (fun _ _ => 0) [⟨1, 2⟩] 800 420 0
      = { x := 1, y := 2, angle := 0, segmentIndex := none, localT := none } := by
    decide!
  refine ⟨h1, ?_, h2, h3, ?_⟩
  · rintro ⟨i, l, hi, _⟩
    rw [h1] at hi
    cases hi
  · rintro ⟨i, l, hi, _⟩
    rw [h3] at hi
    cases hi

/-- C11, amended.  Totality of resolution: both resolvers return a record
with `x` and `y` for every point list and every progress; for every non-empty
list `getPositionOnTrack` also returns a `segmentIndex` and a `localT` in
`[0,1]`, and for every list of at least two points so does the marker
computation of `CanvasPlaceholder`. -/
theorem resolution_total (hypot atan2 : ℚ → ℚ → ℚ) (hh : ∀ dx dy, 0 ≤ hypot dx dy) :
    (∀ (pts : List Point) (t : ℚ), pts ≠ [] →
      ∃ (i : ℤ) (l : ℚ), (getPositionOnTrack hypot pts t).segmentIndex = some i ∧
        (getPositionOnTrack hypot pts t).localT = some l ∧ 0 ≤ l ∧ l ≤ 1) ∧
    (∀ (pts : List Point) (width height t : ℚ), 2 ≤ pts.length →
      ∃ (i : ℤ) (l : ℚ), (marker hypot atan2 pts width height t).segmentIndex = some i ∧
        (marker hypot atan2 pts width height t).localT = some l ∧ 0 ≤ l ∧ l ≤ 1) := by
  have two : ∀ (pts : List Point) (t : ℚ), 2 ≤ pts.length →
      ∃ (i : ℤ) (l : ℚ), (getPositionOnTrack hypot pts t).segmentIndex = some i ∧
        (getPositionOnTrack hypot pts t).localT = some l ∧ 0 ≤ l ∧ l ≤ 1 := by
    intro pts t hn
    obtain ⟨k, seg, _, hlen, hlo, hhi, _, hres⟩ := getPositionOnTrack_sample hypot hh pts hn t
    refine ⟨(k : ℤ), _, by rw [hres], by rw [hres], ?_, ?_⟩
    · exact div_nonneg (by linarith) (le_of_lt hlen)
    · rw [div_le_one hlen]
      linarith
  refine ⟨?_, ?_⟩
  · intro pts t hne
    match pts, hne with
    | [p], _ =>
      refine ⟨0, 0, ?_, ?_, le_rfl, zero_le_one⟩ <;>
        simp [getPositionOnTrack, buildSegs, totalLen]
    | a :: b :: rest, _ => exact two (a :: b :: rest) t (by simp)
  · intro pts width height t hn
    obtain ⟨i, l, hi, hl, h0, h1⟩ := two pts t hn
    have hm := marker_toPosition hypot atan2 hh pts hn width height t
    refine ⟨i, l, ?_, ?_, h0, h1⟩
    · rw [← hm] at hi; exact hi
    · rw [← hm] at hl; exact hl

/-- C11 amended, at a concrete input: the path `(0,0) → (3,4) → (3,10)` at
progress `1/2`. -/
theorem resolution_total_witness :
    (∀ dx dy, 0 ≤ hypotQ dx dy) ∧ [(⟨0, 0⟩ : Point), ⟨3, 4⟩, ⟨3, 10⟩] ≠ [] ∧
    (∃ (i : ℤ) (l : ℚ),
      (getPositionOnTrack hypotQ [⟨0, 0⟩, ⟨3, 4⟩, ⟨3, 10⟩] (1 / 2)).segmentIndex = some i ∧
      (getPositionOnTrack hypotQ [⟨0, 0⟩, ⟨3, 4⟩, ⟨3, 10⟩] (1 / 2)).localT = some l ∧
      0 ≤ l ∧ l ≤ 1) ∧
    2 ≤ [(⟨0, 0⟩ : Point), ⟨3, 4⟩, ⟨3, 10⟩].length ∧
    (∃ (i : ℤ) (l : ℚ),
      (marker hypotQ (fun _ _ => 0) [⟨0, 0⟩, ⟨3, 4⟩, ⟨3, 10⟩] 800 420 (1 / 2)).segmentIndex
        = some i ∧
      (marker hypotQ (fun _ _ => 0) [⟨0, 0⟩, ⟨3, 4⟩, ⟨3, 10⟩] 800 420 (1 / 2)).localT
        = some l ∧ 0 ≤ l ∧ l ≤ 1) :=
  ⟨hypotQ_nonneg, by simp,
    (resolution_total hypotQ (fun _ _ => 0) hypotQ_nonneg).1 [⟨0, 0⟩, ⟨3, 4⟩, ⟨3, 10⟩] (1 / 2)
      (by simp),
    by decide,
    (resolution_total hypotQ (fun _ _ => 0) hypotQ_nonneg).2 [⟨0, 0⟩, ⟨3, 4⟩, ⟨3, 10⟩] 800 420
      (1 / 2) (by decide)⟩

/-- C14. Non-zero segment length: every segment built from two consecutive
points, in `getPositionOnTrack` and in the `segInfo` of `CanvasPlaceholder`,
has a length strictly greater than `0`; when the two points coincide the
length is the floor `0.00001`. -/
theorem segment_length_pos (hypot : ℚ → ℚ → ℚ) (hh : ∀ dx dy, 0 ≤ hypot dx dy) :
    (∀ a b : Point, 0 < segLen hypot a b) ∧
    (∀ (pts : List Point) (s : Segment), s ∈ buildSegs hypot pts →
      0 < s.len ∧ s.len = segLen hypot s.a s.b) ∧
    (∀ (pts : List Point) (s : Segment), s ∈ (segInfo hypot pts).1 → 0 < s.len) ∧
    (hypot 0 0 = 0 → ∀ a : Point, segLen hypot a a = 0.00001) := by
  refine ⟨segLen_pos hypot hh, ?_, ?_, ?_⟩
  · intro pts s hs
    refine ⟨buildSegs_len_pos hypot hh pts s hs, ?_⟩
    obtain ⟨k, hk⟩ := List.getElem?_of_mem hs
    exact (buildSegs_getElem? hypot pts k s hk).2.2
  · intro pts s hs
    unfold segInfo at hs
    split_ifs at hs with h
    · simp at hs
    · exact buildSegs_len_pos hypot hh pts s hs
  · intro h0 a
    unfold segLen
    simp [h0]

/-- C14, at a concrete input: the doubled point `(1,2), (1,2)` followed by
`(4,6)`. -/
theorem segment_length_pos_witness :
    (∀ dx dy, 0 ≤ hypotQ dx dy) ∧ hypotQ 0 0 = 0 ∧
    segLen hypotQ ⟨1, 2⟩ ⟨1, 2⟩ = 0.00001 ∧
    (0 < segLen hypotQ ⟨1, 2⟩ ⟨1, 2⟩) ∧
    buildSegs hypotQ [⟨1, 2⟩, ⟨1, 2⟩, ⟨4, 6⟩] =
      [{ a := ⟨1, 2⟩, b := ⟨1, 2⟩, len := 0.00001 }, { a := ⟨1, 2⟩, b := ⟨4, 6⟩, len := 5 }] :=
  ⟨hypotQ_nonneg, by decide!,
    (segment_length_pos hypotQ hypotQ_nonneg).2.2.2 (by decide!) ⟨1, 2⟩,
    (segment_length_pos hypotQ hypotQ_nonneg).1 ⟨1, 2⟩ ⟨1, 2⟩, by decide!⟩

/-- C15. Arc-length sum invariant: the total length stored in the path index
(the `total` of `segInfo`, and the `total` of `getPositionOnTrack`) equals the
sum of the lengths of all segments of the index, for every point list. -/
theorem total_eq_sum_of_lengths (hypot : ℚ → ℚ → ℚ) (pts : List Point) :
    (segInfo hypot pts).2 = ((segInfo hypot pts).1.map Segment.len).sum ∧
    totalLen (buildSegs hypot pts) = ((buildSegs hypot pts).map Segment.len).sum := by
  refine ⟨?_, totalLen_eq_sum _⟩
  unfold segInfo
  split_ifs
  · simp
  · exact totalLen_eq_sum _

/-! ## Claims on the effective speed and on stopping the driver -/

/-- C19. Effective speed: for every tyre compound, session type and
difficulty value, recognised or not, and every numeric `fuelKg`, `SPEED` is
`0.0006 * tyreFactor * sessionFactor * fuelFactor * difficultyFactor` with
`tyreFactor ∈ {1.03, 1.0, 0.97}`, `sessionFactor ∈ {0.9, 1.15, 1.0}`,
`difficultyFactor ∈ {0.9, 1.0, 1.2}` and `0.87 ≤ fuelFactor ≤ 1`, and it is
strictly positive. -/
theorem speed_positive_product (tyreCompound sessionType aiDifficulty : String) (fuelKg : ℚ) :
    ∃ tyreFactor sessionFactor fuelFactor df : ℚ,
      SPEED tyreCompound sessionType fuelKg (difficultyFactor aiDifficulty)
        = 0.0006 * tyreFactor * sessionFactor * fuelFactor * df ∧
      df = difficultyFactor aiDifficulty ∧
      (tyreFactor = 1.03 ∨ tyreFactor = 1.0 ∨ tyreFactor = 0.97) ∧
      (sessionFactor = 0.9 ∨ sessionFactor = 1.15 ∨ sessionFactor = 1.0) ∧
      (df = 0.9 ∨ df = 1.0 ∨ df = 1.2) ∧
      0.87 ≤ fuelFactor ∧ fuelFactor ≤ 1 ∧
      0 < SPEED tyreCompound sessionType fuelKg (difficultyFactor aiDifficulty) := by
  have hlo : (5 : ℚ) ≤ min (max fuelKg 5) 120 := le_min (le_max_right _ _) (by norm_num)
  have hhi : min (max fuelKg 5) 120 ≤ (120 : ℚ) := min_le_right _ _
  have hf1 : (0.87 : ℚ) ≤ 1 - ((min (max fuelKg 5) 120 - 5) / 115) * 0.13 := by
    norm_num
    linarith
  have hf2 : 1 - ((min (max fuelKg 5) 120 - 5) / 115) * 0.13 ≤ (1 : ℚ) := by
    norm_num
    linarith
  have ht : ((if tyreCompound = "soft" then (1.03 : ℚ)
      else if tyreCompound = "medium" then 1.0 else 0.97) = 1.03 ∨
      (if tyreCompound = "soft" then (1.03 : ℚ)
      else if tyreCompound = "medium" then 1.0 else 0.97) = 1.0 ∨
      (if tyreCompound = "soft" then (1.03 : ℚ)
      else if tyreCompound = "medium" then 1.0 else 0.97) = 0.97) := by
    split_ifs <;> simp
  have hs : ((if sessionType = "Practice" then (0.9 : ℚ)
      else if sessionType = "Qualifying" then 1.15 else 1.0) = 0.9 ∨
      (if sessionType = "Practice" then (0.9 : ℚ)
      else if sessionType = "Qualifying" then 1.15 else 1.0) = 1.15 ∨
      (if sessionType = "Practice" then (0.9 : ℚ)
      else if sessionType = "Qualifying" then 1.15 else 1.0) = 1.0) := by
    split_ifs <;> simp
  have hd : (difficultyFactor aiDifficulty = 0.9 ∨ difficultyFactor aiDifficulty = 1.0 ∨
      difficultyFactor aiDifficulty = 1.2) := by
    unfold difficultyFactor
    split_ifs <;> simp
  refine ⟨_, _, _, _, rfl, rfl, ht, hs, hd, hf1, hf2, ?_⟩
  unfold SPEED
  have hfpos : (0 : ℚ) < 1 - ((min (max fuelKg 5) 120 - 5) / 115) * 0.13 := by
    have : (0 : ℚ) < 0.87 := by norm_num
    linarith
  have htpos : (0 : ℚ) < (if tyreCompound = "soft" then (1.03 : ℚ)
      else if tyreCompound = "medium" then 1.0 else 0.97) := by
    rcases ht with h | h | h <;> rw [h] <;> norm_num
  have hspos : (0 : ℚ) < (if sessionType = "Practice" then (0.9 : ℚ)
      else if sessionType = "Qualifying" then 1.15 else 1.0) := by
    rcases hs with h | h | h <;> rw [h] <;> norm_num
  have hdpos : (0 : ℚ) < difficultyFactor aiDifficulty := by
    rcases hd with h | h | h <;> rw [h] <;> norm_num
  have hb : (0 : ℚ) < 0.0006 := by norm_num
  exact mul_pos (mul_pos (mul_pos (mul_pos hb htpos) hspos) hfpos) hdpos

theorem loopEffect_settled (st : Sim) (now : ℚ) : (loopEffect st now).Settled := by
  unfold loopEffect Sim.Settled
  split_ifs with h
  · rcases h with h | h <;> simp [h]
  · rw [not_or] at h
    simp [h.1, h.2]

theorem loopEffect_carProgress (st : Sim) (now : ℚ) :
    (loopEffect st now).carProgress = st.carProgress := by
  unfold loopEffect
  split_ifs <;> rfl

theorem loopEffect_isRunning (st : Sim) (now : ℚ) :
    (loopEffect st now).isRunning = st.isRunning := by
  unfold loopEffect
  split_ifs <;> rfl

theorem animationFrame_stopped (st : Sim) (now : ℚ) (hs : st.Settled)
    (hstop : st.isRunning = false) : animationFrame st now = st := by
  unfold Sim.Settled at hs
  rw [hstop, Bool.false_and] at hs
  unfold animationFrame
  rw [if_neg (by rw [hs]; exact Bool.false_ne_true)]

theorem animationFrames_stopped (st : Sim) (hs : st.Settled) (hstop : st.isRunning = false) :
    ∀ nows : List ℚ, nows.foldl animationFrame st = st
  | [] => rfl
  | now :: rest => by
    rw [List.foldl_cons, animationFrame_stopped st now hs hstop]
    exact animationFrames_stopped st hs hstop rest

/-- C20. Stop freezes progress: `handleStartStop` never changes the progress,
in particular not on the transition from Running to Stopped, after which no
frame is pending; and in every settled state in which the driver is Stopped,
animation frames, one or many, leave the whole state and so the progress
unchanged.  Every state produced by `handleStartStop` is settled, and frames
keep a state settled. -/
theorem stop_freezes_progress :
    (∀ (st : Sim) (now : ℚ), (handleStartStop st now).carProgress = st.carProgress) ∧
    (∀ (st : Sim) (now : ℚ), st.isRunning = true →
      (handleStartStop st now).isRunning = false ∧
        (handleStartStop st now).frameRequested = false) ∧
    (∀ (st : Sim) (now : ℚ), (handleStartStop st now).Settled) ∧
    (∀ (st : Sim) (now : ℚ), st.Settled → (animationFrame st now).Settled) ∧
    (∀ (st : Sim) (nows : List ℚ), st.Settled → st.isRunning = false →
      nows.foldl animationFrame st = st) ∧
    (∀ (st : Sim) (now : ℚ) (nows : List ℚ), st.isRunning = true →
      (nows.foldl animationFrame (handleStartStop st now)).carProgress = st.carProgress) := by
  have hprog : ∀ (st : Sim) (now : ℚ), (handleStartStop st now).carProgress = st.carProgress := by
    intro st now
    unfold handleStartStop
    simp only [loopEffect_carProgress]
  have hrun : ∀ (st : Sim) (now : ℚ), (handleStartStop st now).isRunning = !st.isRunning := by
    intro st now
    unfold handleStartStop
    simp only [loopEffect_isRunning]
  have hset : ∀ (st : Sim) (now : ℚ), (handleStartStop st now).Settled := by
    intro st now
    unfold handleStartStop
    exact loopEffect_settled _ _
  refine ⟨hprog, ?_, hset, ?_, ?_, ?_⟩
  · intro st now hr
    have h1 : (handleStartStop st now).isRunning = false := by rw [hrun, hr]; rfl
    refine ⟨h1, ?_⟩
    have h2 := hset st now
    unfold Sim.Settled at h2
    rw [h1, Bool.false_and] at h2
    exact h2
  · intro st now hs
    unfold animationFrame
    split_ifs with h
    · unfold Sim.Settled at hs ⊢
      simp only
      rw [← hs, h]
    · exact hs
  · intro st nows hs hstop
    exact animationFrames_stopped st hs hstop nows
  · intro st now nows hr
    have h1 : (handleStartStop st now).isRunning = false := by rw [hrun, hr]; rfl
    rw [animationFrames_stopped _ (hset st now) h1 nows, hprog]

/-- C20, at a concrete input: a driver running on a 400-point track at
progress `1/4` is stopped at time `5000`; frames at `5016` and `5033` change
nothing. -/
theorem stop_freezes_progress_witness :
    ({ isRunning := true, carProgress := 1 / 4, runMinutes := 10, remainingSeconds := some 600,
       tyreCompound := "soft", sessionType := "Qualifying", fuelKg := 50,
       aiDifficulty := "Normal", trackPoints := 400, frameRequested := true,
       last := 4990 } : Sim).isRunning = true ∧
    ([(5016 : ℚ), 5033].foldl animationFrame
      (handleStartStop
        { isRunning := true, carProgress := 1 / 4, runMinutes := 10,
          remainingSeconds := some 600, tyreCompound := "soft", sessionType := "Qualifying",
          fuelKg := 50, aiDifficulty := "Normal", trackPoints := 400, frameRequested := true,
          last := 4990 } 5000)).carProgress
      = ({ isRunning := true, carProgress := 1 / 4, runMinutes := 10,
           remainingSeconds := some 600, tyreCompound := "soft", sessionType := "Qualifying",
           fuelKg := 50, aiDifficulty := "Normal", trackPoints := 400, frameRequested := true,
           last := 4990 } : Sim).carProgress :=
  ⟨rfl, stop_freezes_progress.2.2.2.2.2 _ 5000 [5016, 5033] rfl⟩

/-! ## Lemmas on the bounding box and the fit -/

theorem foldl_min_mem (l : List ℚ) (a : ℚ) : l.foldl min a ∈ a :: l := by
  induction l generalizing a with
  | nil => simp
  | cons b rest ih =>
    rw [List.foldl_cons]
    rcases List.mem_cons.1 (ih (min a b)) with h | h
    · rw [h]
      rcases min_choice a b with h' | h' <;> rw [h'] <;> simp
    · exact List.mem_cons_of_mem _ (List.mem_cons_of_mem _ h)

theorem foldl_max_mem (l : List ℚ) (a : ℚ) : l.foldl max a ∈ a :: l := by
  induction l generalizing a with
  | nil => simp
  | cons b rest ih =>
    rw [List.foldl_cons]
    rcases List.mem_cons.1 (ih (max a b)) with h | h
    · rw [h]
      rcases max_choice a b with h' | h' <;> rw [h'] <;> simp
    · exact List.mem_cons_of_mem _ (List.mem_cons_of_mem _ h)

theorem foldl_min_eq_of_least (l : List ℚ) (a m : ℚ) (hm : m ∈ a :: l)
    (hle : ∀ v ∈ a :: l, m ≤ v) : l.foldl min a = m := by
  apply le_antisymm
  · rcases List.mem_cons.1 hm with rfl | h
    · exact (foldl_min_le l _).1
    · exact (foldl_min_le l a).2 m h
  · exact hle _ (foldl_min_mem l a)

theorem foldl_max_eq_of_greatest (l : List ℚ) (a m : ℚ) (hm : m ∈ a :: l)
    (hle : ∀ v ∈ a :: l, v ≤ m) : l.foldl max a = m := by
  apply le_antisymm
  · exact hle _ (foldl_max_mem l a)
  · rcases List.mem_cons.1 hm with rfl | h
    · exact (le_foldl_max l _).1
    · exact (le_foldl_max l a).2 m h

/-- The code's normalization is the fit of the specification applied to each
point in turn, for the bounding box of the input. -/
theorem normalizeWith_eq_fit (rnd : ℚ → ℚ) (p : Point) (ps : List Point) (b : Box)
    (hb : IsBoundingBox (p :: ps) b) (width height padding : ℚ) :
    normalizeWith rnd p ps width height padding
      = (p :: ps).map (fitPoint rnd b width height padding) := by
  obtain ⟨⟨h1, h2⟩, ⟨h3, h4⟩, ⟨h5, h6⟩, ⟨h7, h8⟩⟩ := hb
  simp only [List.map_cons] at h1 h2 h3 h4 h5 h6 h7 h8
  have e1 := foldl_min_eq_of_least _ _ _ h1 h2
  have e2 := foldl_max_eq_of_greatest _ _ _ h3 h4
  have e3 := foldl_min_eq_of_least _ _ _ h5 h6
  have e4 := foldl_max_eq_of_greatest _ _ _ h7 h8
  unfold normalizeWith
  simp only [e1, e2, e3, e4]
  apply List.map_congr_left
  intro q _
  simp only [fitPoint, fitScale, targetSide, Box.dataW, Box.dataH, add_assoc]

theorem fitScale_pos (b : Box) (width height padding : ℚ) :
    0 < fitScale b width height padding := by
  unfold fitScale targetSide Box.dataW Box.dataH
  exact lt_min
    (div_pos (lt_of_lt_of_le one_pos (le_max_left _ _)) (lt_of_lt_of_le one_pos (le_max_left _ _)))
    (div_pos (lt_of_lt_of_le one_pos (le_max_left _ _)) (lt_of_lt_of_le one_pos (le_max_left _ _)))

/-! ## Claims on the shape of the normalization -/

/-- C16. Normalizer cardinality and order: `normalizeTrack` returns the empty
list for the empty input, and for every input a list of the same length whose
`i`-th point is the fit of the `i`-th input point, a function of that point,
the bounding box and the rectangle only. -/
theorem normalizeTrack_cardinality_order (width height padding : ℚ) :
    normalizeTrack [] width height padding = [] ∧
    (∀ pts : List Point, (normalizeTrack pts width height padding).length = pts.length) ∧
    (∀ (pts : List Point) (b : Box), IsBoundingBox pts b →
      normalizeTrack pts width height padding
        = pts.map (fitPoint mathRound b width height padding)) ∧
    (∀ (pts : List Point) (b : Box) (i : ℕ) (q : Point), IsBoundingBox pts b →
      pts[i]? = some q →
      (normalizeTrack pts width height padding)[i]?
        = some (fitPoint mathRound b width height padding q)) := by
  have hmap : ∀ (pts : List Point) (b : Box), IsBoundingBox pts b →
      normalizeTrack pts width height padding
        = pts.map (fitPoint mathRound b width height padding) := by
    intro pts b hb
    cases pts with
    | nil => rfl
    | cons p ps => exact normalizeWith_eq_fit mathRound p ps b hb width height padding
  refine ⟨rfl, ?_, hmap, ?_⟩
  · intro pts
    cases pts with
    | nil => rfl
    | cons p ps => simp [normalizeTrack, normalizeWith]
  · intro pts b i q hb hq
    rw [hmap pts b hb, List.getElem?_map, hq]
    rfl

/-- C16, at a concrete input: the second of the points `(0,0), (3,4)` into
800 by 600 with padding 40. -/
theorem normalizeTrack_cardinality_order_witness :
    IsBoundingBox [⟨0, 0⟩, ⟨3, 4⟩] ⟨0, 3, 0, 4⟩ ∧
    [(⟨0, 0⟩ : Point), ⟨3, 4⟩][1]? = some ⟨3, 4⟩ ∧
    (normalizeTrack [⟨0, 0⟩, ⟨3, 4⟩] 800 600 40)[1]?
      = some (fitPoint mathRound ⟨0, 3, 0, 4⟩ 800 600 40 ⟨3, 4⟩) ∧
    fitPoint mathRound ⟨0, 3, 0, 4⟩ 800 600 40 ⟨3, 4⟩ = ⟨595, 560⟩ :=
  ⟨by decide!, by rfl,
    (normalizeTrack_cardinality_order 800 600 40).2.2.2 [⟨0, 0⟩, ⟨3, 4⟩] ⟨0, 3, 0, 4⟩ 1 ⟨3, 4⟩
      (by decide!) (by rfl),
    by decide!⟩

/-- C17. Aspect-preserving centred fit: for a non-empty point list with
bounding box `b`, the unrounded normalization of `CanvasPlaceholder` maps each
point `(x, y)` to `((x - minX) * s + padding + (targetW - dataW * s) / 2,
(y - minY) * s + padding + (targetH - dataH * s) / 2)` with the one positive
scale `s = min(targetW / dataW, targetH / dataH)`, so differences along both
axes are scaled by `s`; the image of `b` is the bounding box of the output,
and when both extents of `b` are at least `1` its margins to opposite sides
of the target rectangle are equal. -/
theorem normalized_centred_fit (pts : List Point) (b : Box) (hb : IsBoundingBox pts b)
    (width height padding : ℚ) :
    normalized pts width height padding
      = pts.map (fun q =>
          { x := (q.x - b.minX) * fitScale b width height padding + padding
              + (targetSide width padding - b.dataW * fitScale b width height padding) / 2
            y := (q.y - b.minY) * fitScale b width height padding + padding
              + (targetSide height padding - b.dataH * fitScale b width height padding) / 2 }) ∧
    fitScale b width height padding
      = min (targetSide width padding / max 1 (b.maxX - b.minX))
          (targetSide height padding / max 1 (b.maxY - b.minY)) ∧
    0 < fitScale b width height padding ∧
    (∀ q r : Point,
      (fitPoint id b width height padding q).x - (fitPoint id b width height padding r).x
        = fitScale b width height padding * (q.x - r.x) ∧
      (fitPoint id b width height padding q).y - (fitPoint id b width height padding r).y
        = fitScale b width height padding * (q.y - r.y)) ∧
    IsBoundingBox (normalized pts width height padding)
      { minX := (fitPoint id b width height padding ⟨b.minX, b.minY⟩).x
        maxX := (fitPoint id b width height padding ⟨b.maxX, b.maxY⟩).x
        minY := (fitPoint id b width height padding ⟨b.minX, b.minY⟩).y
        maxY := (fitPoint id b width height padding ⟨b.maxX, b.maxY⟩).y } ∧
    (1 ≤ b.maxX - b.minX → 1 ≤ b.maxY - b.minY →
      (fitPoint id b width height padding ⟨b.minX, b.minY⟩).x - padding
        = (padding + targetSide width padding)
          - (fitPoint id b width height padding ⟨b.maxX, b.maxY⟩).x ∧
      (fitPoint id b width height padding ⟨b.minX, b.minY⟩).y - padding
        = (padding + targetSide height padding)
          - (fitPoint id b width height padding ⟨b.maxX, b.maxY⟩).y) := by
  have hs := fitScale_pos b width height padding
  have hmap : normalized pts width height padding
      = pts.map (fitPoint id b width height padding) := by
    cases pts with
    | nil => rfl
    | cons p ps => exact normalizeWith_eq_fit id p ps b hb width height padding
  have hx : ∀ u v : ℚ, u ≤ v →
      (fitPoint id b width height padding ⟨u, 0⟩).x
        ≤ (fitPoint id b width height padding ⟨v, 0⟩).x := by
    intro u v huv
    simp only [fitPoint, id]
    nlinarith
  have hy : ∀ u v : ℚ, u ≤ v →
      (fitPoint id b width height padding ⟨0, u⟩).y
        ≤ (fitPoint id b width height padding ⟨0, v⟩).y := by
    intro u v huv
    simp only [fitPoint, id]
    nlinarith
  have hxq : ∀ q : Point, (fitPoint id b width height padding q).x
      = (fitPoint id b width height padding ⟨q.x, 0⟩).x := fun q => rfl
  have hyq : ∀ q : Point, (fitPoint id b width height padding q).y
      = (fitPoint id b width height padding ⟨0, q.y⟩).y := fun q => rfl
  obtain ⟨⟨h1, h2⟩, ⟨h3, h4⟩, ⟨h5, h6⟩, ⟨h7, h8⟩⟩ := hb
  refine ⟨?_, rfl, hs, ?_, ?_, ?_⟩
  · rw [hmap]
    rfl
  · intro q r
    simp only [fitPoint, id]
    constructor <;> ring
  · rw [hmap]
    simp only [IsBoundingBox, List.map_map, List.mem_map, Function.comp_apply]
    simp only [List.mem_map] at h1 h2 h3 h4 h5 h6 h7 h8
    refine ⟨⟨?_, ?_⟩, ⟨?_, ?_⟩, ⟨?_, ?_⟩, ⟨?_, ?_⟩⟩
    · obtain ⟨q, hq, hqx⟩ := h1
      exact ⟨q, hq, by rw [hxq q, hqx]; rfl⟩
    · rintro v ⟨q, hq, rfl⟩
      rw [hxq q]
      exact hx _ _ (h2 q.x ⟨q, hq, rfl⟩)
    · obtain ⟨q, hq, hqx⟩ := h3
      exact ⟨q, hq, by rw [hxq q, hqx]; rfl⟩
    · rintro v ⟨q, hq, rfl⟩
      rw [hxq q]
      exact hx _ _ (h4 q.x ⟨q, hq, rfl⟩)
    · obtain ⟨q, hq, hqy⟩ := h5
      exact ⟨q, hq, by rw [hyq q, hqy]; rfl⟩
    · rintro v ⟨q, hq, rfl⟩
      rw [hyq q]
      exact hy _ _ (h6 q.y ⟨q, hq, rfl⟩)
    · obtain ⟨q, hq, hqy⟩ := h7
      exact ⟨q, hq, by rw [hyq q, hqy]; rfl⟩
    · rintro v ⟨q, hq, rfl⟩
      rw [hyq q]
      exact hy _ _ (h8 q.y ⟨q, hq, rfl⟩)
  · intro hX hY
    simp only [fitPoint, id, Box.dataW, Box.dataH, max_eq_right hX, max_eq_right hY]
    constructor <;> ring

/-- C17, at a concrete input: the points `(0,0), (3,4)` into 800 by 600 with
padding 40: scale `130`, margins `165` left and right, `0` above and below. -/
theorem normalized_centred_fit_witness :
    IsBoundingBox [⟨0, 0⟩, ⟨3, 4⟩] ⟨0, 3, 0, 4⟩ ∧
    normalized [⟨0, 0⟩, ⟨3, 4⟩] 800 600 40 = [⟨205, 40⟩, ⟨595, 560⟩] ∧
    fitScale ⟨0, 3, 0, 4⟩ 800 600 40 = 130 ∧
    normalized [⟨0, 0⟩, ⟨3, 4⟩] 800 600 40
      = [(⟨0, 0⟩ : Point), ⟨3, 4⟩].map (fun q =>
          { x := (q.x - 0) * fitScale ⟨0, 3, 0, 4⟩ 800 600 40 + 40
              + (targetSide 800 40 - (Box.mk 0 3 0 4).dataW
                * fitScale ⟨0, 3, 0, 4⟩ 800 600 40) / 2
            y := (q.y - 0) * fitScale ⟨0, 3, 0, 4⟩ 800 600 40 + 40
              + (targetSide 600 40 - (Box.mk 0 3 0 4).dataH
                * fitScale ⟨0, 3, 0, 4⟩ 800 600 40) / 2 }) :=
  ⟨by decide!, by decide!, by decide!,
    (normalized_centred_fit [⟨0, 0⟩, ⟨3, 4⟩] ⟨0, 3, 0, 4⟩ (by decide!) 800 600 40).1⟩

/-! ## Lemmas on the points of a generated curve -/

theorem catmullRom_zero (p0 p1 p2 p3 : Point) : catmullRom p0 p1 p2 p3 0 = p1 := by
  cases p1
  simp only [catmullRom, Point.mk.injEq]
  constructor <;> ring

theorem catmullRom_one (p0 p1 p2 p3 : Point) : catmullRom p0 p1 p2 p3 1 = p2 := by
  cases p2
  simp only [catmullRom, Point.mk.injEq]
  constructor <;> ring

theorem mix_zero (a b : Point) : mix a b 0 = a := by
  cases a
  simp [mix, lerp]

theorem allSome_getElem? {α : Type} : ∀ (l : List (Option α)) (out : List α),
    allSome l = some out → ∀ (i : ℕ) (a : α), l[i]? = some (some a) → out[i]? = some a
  | [], _, _, i, a, h => by simp at h
  | none :: _, _, h, _, _, _ => by simp [allSome] at h
  | some x :: rest, out, h, i, a, hi => by
    rw [allSome] at h
    cases hr : allSome rest with
    | none => rw [hr] at h; cases h
    | some out' =>
      rw [hr, Option.map_some', Option.some.injEq] at h
      subst h
      cases i with
      | zero =>
        simp only [List.getElem?_cons_zero, Option.some.injEq] at hi
        simp [hi]
      | succ j =>
        rw [List.getElem?_cons_succ] at hi ⊢
        exact allSome_getElem? rest out' hr j a hi

theorem flatten_getElem? {α : Type} (m : ℕ) : ∀ (ls : List (List α)),
    (∀ l ∈ ls, l.length = m) → ∀ (s i : ℕ) (l : List α), ls[s]? = some l → i < m →
    ls.flatten[s * m + i]? = l[i]?
  | [], _, s, i, l, h, _ => by simp at h
  | l0 :: rest, hlen, 0, i, l, h, hi => by
    simp only [List.getElem?_cons_zero, Option.some.injEq] at h
    subst h
    have h0 : l0.length = m := hlen l0 (List.mem_cons_self _ _)
    rw [List.flatten_cons, zero_mul, zero_add, List.getElem?_append_left (by omega)]
  | l0 :: rest, hlen, s + 1, i, l, h, hi => by
    rw [List.getElem?_cons_succ] at h
    have h0 : l0.length = m := hlen l0 (List.mem_cons_self _ _)
    have ih := flatten_getElem? m rest (fun l' hl' => hlen l' (List.mem_cons_of_mem _ hl'))
      s i l h hi
    rw [List.flatten_cons, List.getElem?_append_right (by rw [h0]; nlinarith)]
    have e : (s + 1) * m + i - l0.length = s * m + i := by
      rw [h0, Nat.add_mul, one_mul]; omega
    rw [e, ih]

/-- The sample number `i` of span `s` in the intermediate sequence. -/
theorem splineSamples_getElem? (closed : List Point) (segments perSeg : ℕ)
    (place : ℕ → ℚ → Point → Point) (pts : List Point)
    (hpts : splineSamples closed segments perSeg place = some pts)
    (s i : ℕ) (hs : s < segments) (hi : i < perSeg) (p0 p1 p2 p3 : Point)
    (h0 : closed[s]? = some p0) (h1 : closed[s + 1]? = some p1)
    (h2 : closed[s + 2]? = some p2) (h3 : closed[s + 3]? = some p3) :
    pts[s * perSeg + i]?
      = some (place s ((i : ℚ) / (perSeg : ℚ))
          (catmullRom p0 p1 p2 p3 ((i : ℚ) / (perSeg : ℚ)))) := by
  unfold splineSamples at hpts
  apply allSome_getElem? _ _ hpts
  rw [flatten_getElem? perSeg _ (by
      intro l hl
      simp only [List.mem_map, List.mem_range] at hl
      obtain ⟨s', _, rfl⟩ := hl
      simp) s i _ (by
      rw [List.getElem?_map, List.getElem?_range hs]
      rfl) hi]
  rw [List.getElem?_map, List.getElem?_range hi]
  simp only [Option.map_some', h0, h1, h2, h3]

/-- Where the double computation of the index `j` is exact, the resampled
sequence has at `j` the point of `pts` at `j`. -/
theorem resample_getElem?_of_exact (pts out : List Point) (sampleCount : ℕ)
    (hout : resample pts sampleCount = some out) (j : ℕ) (hjN : j < sampleCount) (p : Point)
    (hj : pts[j]? = some p)
    (hidx : toDouble (toDouble ((j : ℚ) / (sampleCount : ℚ)) * (pts.length : ℚ)) = (j : ℚ)) :
    out[j]? = some p := by
  have hjl : j < pts.length := by
    by_contra hge
    rw [List.getElem?_eq_none (not_lt.1 hge)] at hj
    cases hj
  unfold resample at hout
  apply allSome_getElem? _ _ hout
  rw [List.getElem?_map, List.getElem?_range hjN]
  simp only [Option.map_some', hidx, mathFloor, Int.floor_natCast, Int.toNat_ofNat,
    Nat.mod_eq_of_lt hjl, hj, Int.cast_natCast, sub_self]
  have hj1 : (j + 1) % pts.length < pts.length := Nat.mod_lt _ (by omega)
  rw [List.getElem?_eq_getElem hj1]
  simp only [mix_zero]

theorem monza_closed_getElem? (k : ℕ) (hk : k < 10) :
    ∃ p0 p1 p2 p3 : Point,
      (closeAnchors monzaAnchors)[k]? = some p0 ∧
      (closeAnchors monzaAnchors)[k + 1]? = some p1 ∧
      (closeAnchors monzaAnchors)[k + 2]? = some p2 ∧
      (closeAnchors monzaAnchors)[k + 3]? = some p3 ∧
      monzaAnchors[(k + 1) % 10]? = some p1 := by
  interval_cases k <;> exact ⟨_, _, _, _, rfl, rfl, rfl, rfl, rfl⟩

/-! ## Claim on the anchors of the generated curve -/

/-- C18, as stated, fails.  For `N = 90` and `k = 7` the index is `63`, and
in doubles `(63 / 90) * 90` is `62.99999999999999`, that is `63 - 2^(-47)`:
the loop reads the samples `62` and `63` with a fraction just below `1`, and
the point at index `63` is not the anchor `(180, 80)`. -/
theorem anchor_missed_at_ninety :
    (30 ≤ 90 ∧ 10 ∣ 90 ∧ 7 < 10 ∧ 7 * 90 / 10 = 63) ∧
    monzaAnchors[(7 + 1) % 10]? = some ⟨180, 80⟩ ∧
    toDouble (toDouble ((63 : ℚ) / 90) * 90) = 63 - (2 : ℚ) ^ (-47 : ℤ) ∧
    (generateMonza 90).isSome = true ∧
    (generateMonza 90).bind (fun out => out[63]?) ≠ some ⟨180, 80⟩ :=
  ⟨by decide, by rfl, by decide!, by decide!, by decide!⟩

/-- C18, amended.  The curve passes through the anchors in order:
`catmullRom` is `p1` at `t = 0` and `p2` at `t = 1`, and for every sample
count `N ≥ 30` that is a multiple of `10` and every `k = 0..9` for which the
double computation `(j / N) * N` of the index `j = k * N / 10` returns `j`,
`generateMonza(N)` has at index `j` exactly the anchor number `(k + 1) mod 10`;
index `0` always holds the second anchor `(320, -10)`, and at the default
`N = 400` all ten anchors are there. -/
theorem curve_through_anchors :
    (∀ p0 p1 p2 p3 : Point,
      catmullRom p0 p1 p2 p3 0 = p1 ∧ catmullRom p0 p1 p2 p3 1 = p2) ∧
    (∀ N k : ℕ, 30 ≤ N → 10 ∣ N → k < 10 →
      toDouble (toDouble (((k * N / 10 : ℕ) : ℚ) / (N : ℚ)) * (N : ℚ))
        = ((k * N / 10 : ℕ) : ℚ) →
      ∃ out, generateMonza N = some out ∧ out.length = N ∧
        out[k * N / 10]? = monzaAnchors[(k + 1) % 10]? ∧
        out[0]? = some ⟨320, -10⟩) ∧
    (∀ k : ℕ, k < 10 →
      ∃ out, generateMonza 400 = some out ∧ out.length = 400 ∧
        out[k * 400 / 10]? = monzaAnchors[(k + 1) % 10]?) := by
  have general : ∀ N k : ℕ, 30 ≤ N → 10 ∣ N → k < 10 →
      toDouble (toDouble (((k * N / 10 : ℕ) : ℚ) / (N : ℚ)) * (N : ℚ))
        = ((k * N / 10 : ℕ) : ℚ) →
      ∃ out, generateMonza N = some out ∧ out.length = N ∧
        out[k * N / 10]? = monzaAnchors[(k + 1) % 10]? ∧
        out[0]? = some ⟨320, -10⟩ := by
    intro N k hN hdiv hk hexact
    obtain ⟨m, rfl⟩ := hdiv
    have hm : 3 ≤ m := by omega
    have hclen : (closeAnchors monzaAnchors).length - 3 = 10 := rfl
    have hper : max 3 (10 * m / 10) = m := by
      rw [Nat.mul_div_cancel_left m (by norm_num)]
      exact max_eq_right hm
    obtain ⟨pts, hpts, hl⟩ := splineSamples_some (closeAnchors monzaAnchors) 10 m
      (fun _ _ p => p) (by decide)
    have hgen : generateMonza (10 * m) = resample pts (10 * m) := by
      unfold generateMonza
      simp only [hclen, hper, hpts]
    obtain ⟨out, hout, holen⟩ := resample_some pts (10 * m) (by omega)
    have anchor : ∀ j : ℕ, j < 10 →
        toDouble (toDouble (((j * m : ℕ) : ℚ) / ((10 * m : ℕ) : ℚ)) * ((10 * m : ℕ) : ℚ))
          = ((j * m : ℕ) : ℚ) →
        out[j * m]? = monzaAnchors[(j + 1) % 10]? := by
      intro j hj hex
      obtain ⟨p0, p1, p2, p3, h0, h1, h2, h3, ha⟩ := monza_closed_getElem? j hj
      have hp := splineSamples_getElem? (closeAnchors monzaAnchors) 10 m (fun _ _ p => p) pts
        hpts j 0 hj (by omega) p0 p1 p2 p3 h0 h1 h2 h3
      simp only [add_zero, Nat.cast_zero, zero_div, catmullRom_zero] at hp
      rw [ha]
      exact resample_getElem?_of_exact pts out (10 * m) hout (j * m) (by nlinarith) p1 hp
        (by rw [hl]; exact hex)
    have hidx : k * (10 * m) / 10 = k * m := by
      rw [show k * (10 * m) = 10 * (k * m) by ring, Nat.mul_div_cancel_left _ (by norm_num)]
    rw [hidx] at hexact ⊢
    refine ⟨out, by rw [hgen]; exact hout, holen, anchor k hk hexact, ?_⟩
    have := anchor 0 (by norm_num) (by simp [toDouble])
    rw [zero_mul] at this
    rw [this]
    rfl
  refine ⟨fun p0 p1 p2 p3 => ⟨catmullRom_zero p0 p1 p2 p3, catmullRom_one p0 p1 p2 p3⟩,
    general, ?_⟩
  intro k hk
  have hex : ∀ j : ℕ, j < 10 →
      toDouble (toDouble (((j * 400 / 10 : ℕ) : ℚ) / ((400 : ℕ) : ℚ)) * ((400 : ℕ) : ℚ))
        = ((j * 400 / 10 : ℕ) : ℚ) := by
    decide!
  obtain ⟨out, h1, h2, h3, _⟩ := general 400 k (by norm_num) (by decide) hk (hex k hk)
  exact ⟨out, h1, h2, h3⟩

/-- C18 amended, at a concrete input: `N = 30` and `k = 3`, index `9`, where
`(9 / 30) * 30` is `9` in doubles: the fifth anchor `(560, 260)`. -/
theorem curve_through_anchors_witness :
    30 ≤ 30 ∧ 10 ∣ 30 ∧ 3 < 10 ∧
    toDouble (toDouble (((3 * 30 / 10 : ℕ) : ℚ) / ((30 : ℕ) : ℚ)) * ((30 : ℕ) : ℚ))
      = ((3 * 30 / 10 : ℕ) : ℚ) ∧
    monzaAnchors[(3 + 1) % 10]? = some ⟨560, 260⟩ ∧
    ∃ out, generateMonza 30 = some out ∧ out.length = 30 ∧
      out[3 * 30 / 10]? = monzaAnchors[(3 + 1) % 10]? ∧ out[0]? = some ⟨320, -10⟩ :=
  ⟨le_rfl, by decide, by decide, by decide!, by rfl,
    curve_through_anchors.2.1 30 3 le_rfl (by decide) (by decide) (by decide!)⟩

/-! ## Claim on the reset of the driver -/

/-- C21. Reset: in every state in which the driver is Stopped, `handleReset`
yields a state with progress `0` in which the driver is still Stopped; that
state is settled with no frame pending, so later animation frames leave the
progress at `0`. -/
theorem reset_from_stopped (st : Sim) (hstop : st.isRunning = false) :
    (handleReset st).carProgress = 0 ∧ (handleReset st).isRunning = false ∧
    (handleReset st).isRunning = st.isRunning ∧
    (handleReset st).frameRequested = false ∧ (handleReset st).Settled ∧
    ∀ nows : List ℚ, (nows.foldl animationFrame (handleReset st)).carProgress = 0 := by
  have hs : (handleReset st).Settled := by
    unfold Sim.Settled handleReset
    simp
  refine ⟨rfl, rfl, hstop.symm, rfl, hs, ?_⟩
  intro nows
  rw [animationFrames_stopped (handleReset st) hs rfl nows]
  rfl

/-- C21, at a concrete input: a stopped driver at progress `1/4`. -/
theorem reset_from_stopped_witness :
    ({ isRunning := false, carProgress := 1 / 4, runMinutes := 10, remainingSeconds := some 300,
       tyreCompound := "soft", sessionType := "Qualifying", fuelKg := 50,
       aiDifficulty := "Normal", trackPoints := 400, frameRequested := false,
       last := 4990 } : Sim).isRunning = false ∧
    (handleReset
      { isRunning := false, carProgress := 1 / 4, runMinutes := 10, remainingSeconds := some 300,
        tyreCompound := "soft", sessionType := "Qualifying", fuelKg := 50,
        aiDifficulty := "Normal", trackPoints := 400, frameRequested := false,
        last := 4990 }).carProgress = 0 ∧
    (handleReset
      { isRunning := false, carProgress := 1 / 4, runMinutes := 10, remainingSeconds := some 300,
        tyreCompound := "soft", sessionType := "Qualifying", fuelKg := 50,
        aiDifficulty := "Normal", trackPoints := 400, frameRequested := false,
        last := 4990 }).isRunning = false :=
  ⟨rfl, (reset_from_stopped _ rfl).1, (reset_from_stopped _ rfl).2.1⟩

/-! ## Claims on the scan and the path index -/

/-- C22. Boundary tie-break: for a list of at least two points, if
`frac(t) * totalLength` equals exactly the cumulative length up to and
including segment `i`, and `i` is the first segment whose cumulative length
reaches it, then `getPositionOnTrack` returns `segmentIndex = i` with
`localT = 1`, the end point of segment `i`, and not `i + 1` with `0`; the
marker of `CanvasPlaceholder` does the same. -/
theorem boundary_tie_break (hypot atan2 : ℚ → ℚ → ℚ) (hh : ∀ dx dy, 0 ≤ hypot dx dy)
    (pts : List Point) (hn : 2 ≤ pts.length) (t : ℚ) (i : ℕ) (seg : Segment)
    (hi : (buildSegs hypot pts)[i]? = some seg)
    (hT : Int.fract t * totalLen (buildSegs hypot pts)
      = (((buildSegs hypot pts).take (i + 1)).map Segment.len).sum)
    (hfirst : ∀ j, j < i → (((buildSegs hypot pts).take (j + 1)).map Segment.len).sum
      < Int.fract t * totalLen (buildSegs hypot pts)) :
    getPositionOnTrack hypot pts t =
      { x := seg.b.x, y := seg.b.y, segmentIndex := some (i : ℤ), localT := some 1 } ∧
    (getPositionOnTrack hypot pts t).segmentIndex ≠ some ((i : ℤ) + 1) ∧
    ∀ width height : ℚ,
      (marker hypot atan2 pts width height t).toPosition =
        { x := seg.b.x, y := seg.b.y, segmentIndex := some (i : ℤ), localT := some 1 } := by
  obtain ⟨k, sk, hk, hlen, hlo, hhi, hfk, hres⟩ := getPositionOnTrack_sample hypot hh pts hn t
  have hki : k = i := by
    rcases Nat.lt_trichotomy k i with h | h | h
    · have h1 := hfirst k h
      have e : (((buildSegs hypot pts).take (k + 1)).map Segment.len).sum
          = (((buildSegs hypot pts).take k).map Segment.len).sum + sk.len := by
        rw [List.take_succ, hk]
        simp
      rw [e] at h1
      linarith
    · exact h
    · have h1 := hfk i h
      rw [hT] at h1
      exact absurd h1 (lt_irrefl _)
  subst hki
  rw [hi, Option.some.injEq] at hk
  subst hk
  have e : (((buildSegs hypot pts).take (k + 1)).map Segment.len).sum
      = (((buildSegs hypot pts).take k).map Segment.len).sum + seg.len := by
    rw [List.take_succ, hi]
    simp
  have hl : (Int.fract t * totalLen (buildSegs hypot pts)
      - (((buildSegs hypot pts).take k).map Segment.len).sum) / seg.len = 1 := by
    rw [hT, e, add_sub_cancel_left, div_self (ne_of_gt hlen)]
  rw [hl] at hres
  have hfin : getPositionOnTrack hypot pts t =
      { x := seg.b.x, y := seg.b.y, segmentIndex := some (k : ℤ), localT := some 1 } := by
    rw [hres]
    simp
  refine ⟨hfin, ?_, ?_⟩
  · rw [hfin]
    simp
  · intro width height
    rw [marker_toPosition hypot atan2 hh pts hn width height t, hfin]

/-- C22, at a concrete input: on `(0,0) → (3,4) → (3,10)`, of lengths `5` and
`6`, progress `5/11` is the end of segment `0`, the point `(3,4)`. -/
theorem boundary_tie_break_witness :
    (∀ dx dy, 0 ≤ hypotQ dx dy) ∧ 2 ≤ [(⟨0, 0⟩ : Point), ⟨3, 4⟩, ⟨3, 10⟩].length ∧
    (buildSegs hypotQ [⟨0, 0⟩, ⟨3, 4⟩, ⟨3, 10⟩])[0]?
      = some { a := ⟨0, 0⟩, b := ⟨3, 4⟩, len := 5 } ∧
    Int.fract (5 / 11 : ℚ) * totalLen (buildSegs hypotQ [⟨0, 0⟩, ⟨3, 4⟩, ⟨3, 10⟩])
      = (((buildSegs hypotQ [⟨0, 0⟩, ⟨3, 4⟩, ⟨3, 10⟩]).take (0 + 1)).map Segment.len).sum ∧
    getPositionOnTrack hypotQ [⟨0, 0⟩, ⟨3, 4⟩, ⟨3, 10⟩] (5 / 11) =
      { x := 3, y := 4, segmentIndex := some ((0 : ℕ) : ℤ), localT := some 1 } :=
  ⟨hypotQ_nonneg, by decide, by decide!, by decide!,
    (boundary_tie_break hypotQ (fun _ _ => 0) hypotQ_nonneg [⟨0, 0⟩, ⟨3, 4⟩, ⟨3, 10⟩]
      (by decide) (5 / 11) 0 { a := ⟨0, 0⟩, b := ⟨3, 4⟩, len := 5 } (by decide!) (by decide!)
      (by intro j hj; exact absurd hj (Nat.not_lt_zero j))).1⟩

/-- On a path of at least two points the marker takes its scan branch and
returns from inside the loop. -/
theorem marker_scan (hypot atan2 : ℚ → ℚ → ℚ) (hh : ∀ dx dy, 0 ≤ hypot dx dy)
    (pts : List Point) (hn : 2 ≤ pts.length) (width height t : ℚ) :
    segInfo hypot pts = (buildSegs hypot pts, totalLen (buildSegs hypot pts)) ∧
    ∃ m, markerScan atan2 (wrapProgress t * totalLen (buildSegs hypot pts))
        (buildSegs hypot pts) 0 0 = some m ∧
      marker hypot atan2 pts width height t = m := by
  obtain ⟨hpos, hres⟩ := getPositionOnTrack_scan hypot hh pts hn t
  have hlen : (buildSegs hypot pts).length ≠ 0 := by
    rw [buildSegs_length]; omega
  have hinfo : segInfo hypot pts = (buildSegs hypot pts, totalLen (buildSegs hypot pts)) := by
    unfold segInfo
    rw [if_neg (by omega)]
  have hm := markerScan_toPosition atan2 (Int.fract t * totalLen (buildSegs hypot pts))
    (buildSegs hypot pts) 0 0
  rw [hres] at hm
  refine ⟨hinfo, ?_⟩
  rw [wrapProgress_eq_fract]
  cases hms : markerScan atan2 (Int.fract t * totalLen (buildSegs hypot pts))
      (buildSegs hypot pts) 0 0 with
  | none => rw [hms] at hm; cases hm
  | some m =>
    refine ⟨m, rfl, ?_⟩
    unfold marker
    simp only [hinfo, wrapProgress_eq_fract, hms]
    rw [if_neg (by
      rintro (h | h)
      · exact hlen h
      · exact absurd hpos (not_lt.2 h))]

theorem totalLen_eq_openLength (hypot : ℚ → ℚ → ℚ) :
    ∀ pts : List Point, totalLen (buildSegs hypot pts) = openLength hypot pts
  | [] => rfl
  | [_] => rfl
  | a :: b :: rest => by
    have ih := totalLen_eq_openLength hypot (b :: rest)
    rw [totalLen_eq_sum] at ih ⊢
    rw [buildSegs_cons_cons, openLength, List.map_cons, List.sum_cons, ih]

/-- C25. The scan always succeeds in exact arithmetic: for a list of at least
two points and every progress the total length is not `0`, and the linear
scan of `getPositionOnTrack`, and that of the marker of `CanvasPlaceholder`,
returns from inside the loop; the result is that value, never the trailing
fallback. -/
theorem scan_always_returns (hypot atan2 : ℚ → ℚ → ℚ) (hh : ∀ dx dy, 0 ≤ hypot dx dy)
    (pts : List Point) (hn : 2 ≤ pts.length) (width height t : ℚ) :
    totalLen (buildSegs hypot pts) ≠ 0 ∧
    (∃ r, scan (wrapProgress t * totalLen (buildSegs hypot pts)) (buildSegs hypot pts) 0 0
        = some r ∧ getPositionOnTrack hypot pts t = r) ∧
    (∃ m, markerScan atan2 (wrapProgress t * (segInfo hypot pts).2) (segInfo hypot pts).1 0 0
        = some m ∧ marker hypot atan2 pts width height t = m) := by
  obtain ⟨hpos, hres⟩ := getPositionOnTrack_scan hypot hh pts hn t
  obtain ⟨hinfo, m, hm, hmk⟩ := marker_scan hypot atan2 hh pts hn width height t
  refine ⟨ne_of_gt hpos, ⟨_, by rw [wrapProgress_eq_fract]; exact hres, rfl⟩, m, ?_, hmk⟩
  rw [hinfo]
  exact hm

/-- C25, at a concrete input: the path `(0,0) → (3,4) → (3,10)` at progress
`-3/2`. -/
theorem scan_always_returns_witness :
    (∀ dx dy, 0 ≤ hypotQ dx dy) ∧ 2 ≤ [(⟨0, 0⟩ : Point), ⟨3, 4⟩, ⟨3, 10⟩].length ∧
    ∃ r, scan (wrapProgress (-3 / 2) * totalLen (buildSegs hypotQ [⟨0, 0⟩, ⟨3, 4⟩, ⟨3, 10⟩]))
        (buildSegs hypotQ [⟨0, 0⟩, ⟨3, 4⟩, ⟨3, 10⟩]) 0 0 = some r ∧
      getPositionOnTrack hypotQ [⟨0, 0⟩, ⟨3, 4⟩, ⟨3, 10⟩] (-3 / 2) = r :=
  ⟨hypotQ_nonneg, by decide,
    (scan_always_returns hypotQ (fun _ _ => 0) hypotQ_nonneg [⟨0, 0⟩, ⟨3, 4⟩, ⟨3, 10⟩]
      (by decide) 800 420 (-3 / 2)).2.1⟩

/-- C28. The two resolvers agree: for a list of at least two points and every
progress, `getPositionOnTrack` and the marker computation of
`CanvasPlaceholder` over the same points return the same `x`, `y`, segment
index and local parameter. -/
theorem resolvers_agree (hypot atan2 : ℚ → ℚ → ℚ) (hh : ∀ dx dy, 0 ≤ hypot dx dy)
    (pts : List Point) (hn : 2 ≤ pts.length) (width height t : ℚ) :
    (marker hypot atan2 pts width height t).x = (getPositionOnTrack hypot pts t).x ∧
    (marker hypot atan2 pts width height t).y = (getPositionOnTrack hypot pts t).y ∧
    (marker hypot atan2 pts width height t).segmentIndex
      = (getPositionOnTrack hypot pts t).segmentIndex ∧
    (marker hypot atan2 pts width height t).localT = (getPositionOnTrack hypot pts t).localT := by
  have h := marker_toPosition hypot atan2 hh pts hn width height t
  exact ⟨congrArg Position.x h, congrArg Position.y h, congrArg Position.segmentIndex h,
    congrArg Position.localT h⟩

/-- C28, at a concrete input: the path `(0,0) → (3,4) → (3,10)` at progress
`1/2`, where both give `(3, 9/2)` on segment `1` at `1/12`. -/
theorem resolvers_agree_witness :
    (∀ dx dy, 0 ≤ hypotQ dx dy) ∧ 2 ≤ [(⟨0, 0⟩ : Point), ⟨3, 4⟩, ⟨3, 10⟩].length ∧
    ((marker hypotQ (fun _ _ => 0) [⟨0, 0⟩, ⟨3, 4⟩, ⟨3, 10⟩] 800 420 (1 / 2)).x
        = (getPositionOnTrack hypotQ [⟨0, 0⟩, ⟨3, 4⟩, ⟨3, 10⟩] (1 / 2)).x ∧
      (marker hypotQ (fun _ _ => 0) [⟨0, 0⟩, ⟨3, 4⟩, ⟨3, 10⟩] 800 420 (1 / 2)).y
        = (getPositionOnTrack hypotQ [⟨0, 0⟩, ⟨3, 4⟩, ⟨3, 10⟩] (1 / 2)).y ∧
      (marker hypotQ (fun _ _ => 0) [⟨0, 0⟩, ⟨3, 4⟩, ⟨3, 10⟩] 800 420 (1 / 2)).segmentIndex
        = (getPositionOnTrack hypotQ [⟨0, 0⟩, ⟨3, 4⟩, ⟨3, 10⟩] (1 / 2)).segmentIndex ∧
      (marker hypotQ (fun _ _ => 0) [⟨0, 0⟩, ⟨3, 4⟩, ⟨3, 10⟩] 800 420 (1 / 2)).localT
        = (getPositionOnTrack hypotQ [⟨0, 0⟩, ⟨3, 4⟩, ⟨3, 10⟩] (1 / 2)).localT) ∧
    getPositionOnTrack hypotQ [⟨0, 0⟩, ⟨3, 4⟩, ⟨3, 10⟩] (1 / 2) =
      { x := 3, y := 9 / 2, segmentIndex := some 1, localT := some (1 / 12) } :=
  ⟨hypotQ_nonneg, by decide,
    resolvers_agree hypotQ (fun _ _ => 0) hypotQ_nonneg [⟨0, 0⟩, ⟨3, 4⟩, ⟨3, 10⟩] (by decide)
      800 420 (1 / 2),
    by decide!⟩

/-- C29. Open polyline index: for a list of `n ≥ 2` points the path index,
in `getPositionOnTrack` and in `segInfo`, has exactly `n - 1` segments,
segment `i` joining point `i` to point `i + 1` with its length; there is no
segment number `n - 1` from the last point back to the first, and the total
length is the length of the open polyline. -/
theorem open_polyline_index (hypot : ℚ → ℚ → ℚ) (pts : List Point) (hn : 2 ≤ pts.length) :
    (buildSegs hypot pts).length = pts.length - 1 ∧
    segInfo hypot pts = (buildSegs hypot pts, totalLen (buildSegs hypot pts)) ∧
    (∀ i : ℕ, i + 1 < pts.length → ∃ a b : Point, pts[i]? = some a ∧ pts[i + 1]? = some b ∧
      (buildSegs hypot pts)[i]? = some { a := a, b := b, len := segLen hypot a b }) ∧
    (buildSegs hypot pts)[pts.length - 1]? = none ∧
    totalLen (buildSegs hypot pts) = openLength hypot pts := by
  have hlen := buildSegs_length hypot pts
  refine ⟨hlen, ?_, ?_, ?_, totalLen_eq_openLength hypot pts⟩
  · unfold segInfo
    rw [if_neg (by omega)]
  · intro i hi
    have hi' : i < (buildSegs hypot pts).length := by rw [hlen]; omega
    have hs : (buildSegs hypot pts)[i]? = some ((buildSegs hypot pts)[i]) :=
      List.getElem?_eq_getElem hi'
    obtain ⟨ha, hb, hl⟩ := buildSegs_getElem? hypot pts i _ hs
    refine ⟨_, _, ha, hb, ?_⟩
    rw [hs, ← hl]
  · exact List.getElem?_eq_none (by rw [hlen])

/-- C29, at a concrete input: the three points `(0,0), (3,4), (3,10)` give
the two segments of lengths `5` and `6` and total length `11`. -/
theorem open_polyline_index_witness :
    2 ≤ [(⟨0, 0⟩ : Point), ⟨3, 4⟩, ⟨3, 10⟩].length ∧
    (buildSegs hypotQ [⟨0, 0⟩, ⟨3, 4⟩, ⟨3, 10⟩]).length
      = [(⟨0, 0⟩ : Point), ⟨3, 4⟩, ⟨3, 10⟩].length - 1 ∧
    buildSegs hypotQ [⟨0, 0⟩, ⟨3, 4⟩, ⟨3, 10⟩] =
      [{ a := ⟨0, 0⟩, b := ⟨3, 4⟩, len := 5 }, { a := ⟨3, 4⟩, b := ⟨3, 10⟩, len := 6 }] ∧
    totalLen (buildSegs hypotQ [⟨0, 0⟩, ⟨3, 4⟩, ⟨3, 10⟩]) = 11 :=
  ⟨by decide, (open_polyline_index hypotQ [⟨0, 0⟩, ⟨3, 4⟩, ⟨3, 10⟩] (by decide)).1,
    by decide!, by decide!⟩

/-- C30. Monotone resolution: for a list of at least two points and progress
values `0 ≤ t1 ≤ t2 < 1`, the pair `(segmentIndex, localT)` that
`getPositionOnTrack` returns for `t1` is lexicographically less than or equal
to the pair it returns for `t2`. -/
theorem resolution_monotone (hypot : ℚ → ℚ → ℚ) (hh : ∀ dx dy, 0 ≤ hypot dx dy)
    (pts : List Point) (hn : 2 ≤ pts.length) (t1 t2 : ℚ)
    (h0 : 0 ≤ t1) (h12 : t1 ≤ t2) (h2 : t2 < 1) :
    ∃ (i1 i2 : ℤ) (l1 l2 : ℚ),
      (getPositionOnTrack hypot pts t1).segmentIndex = some i1 ∧
      (getPositionOnTrack hypot pts t1).localT = some l1 ∧
      (getPositionOnTrack hypot pts t2).segmentIndex = some i2 ∧
      (getPositionOnTrack hypot pts t2).localT = some l2 ∧
      (i1 < i2 ∨ (i1 = i2 ∧ l1 ≤ l2)) := by
  obtain ⟨hpos, _⟩ := getPositionOnTrack_scan hypot hh pts hn t1
  obtain ⟨k1, s1, hk1, hlen1, _, _, hf1, hres1⟩ :=
    getPositionOnTrack_sample hypot hh pts hn t1
  obtain ⟨k2, s2, hk2, _, _, hhi2, _, hres2⟩ :=
    getPositionOnTrack_sample hypot hh pts hn t2
  have e1 : Int.fract t1 = t1 := Int.fract_eq_self.2 ⟨h0, lt_of_le_of_lt h12 h2⟩
  have e2 : Int.fract t2 = t2 := Int.fract_eq_self.2 ⟨le_trans h0 h12, h2⟩
  rw [e1] at hf1 hres1
  rw [e2] at hhi2 hres2
  have hT : t1 * totalLen (buildSegs hypot pts) ≤ t2 * totalLen (buildSegs hypot pts) :=
    mul_le_mul_of_nonneg_right h12 (le_of_lt hpos)
  have hle : k1 ≤ k2 := by
    by_contra hlt
    have h := hf1 k2 (not_le.1 hlt)
    have e : (((buildSegs hypot pts).take (k2 + 1)).map Segment.len).sum
        = (((buildSegs hypot pts).take k2).map Segment.len).sum + s2.len := by
      rw [List.take_succ, hk2]
      simp
    rw [e] at h
    linarith
  refine ⟨(k1 : ℤ), (k2 : ℤ), _, _, by rw [hres1], by rw [hres1], by rw [hres2],
    by rw [hres2], ?_⟩
  rcases Nat.lt_or_eq_of_le hle with hlt | heq
  · left
    exact_mod_cast hlt
  · right
    subst heq
    rw [hk1, Option.some.injEq] at hk2
    subst hk2
    refine ⟨rfl, ?_⟩
    exact div_le_div_of_nonneg_right (by linarith) (le_of_lt hlen1)

/-- C30, at a concrete input: on `(0,0) → (3,4) → (3,10)` the progress values
`1/4` and `1/2` resolve to `(0, 11/20)` and `(1, 1/12)`. -/
theorem resolution_monotone_witness :
    (∀ dx dy, 0 ≤ hypotQ dx dy) ∧ 2 ≤ [(⟨0, 0⟩ : Point), ⟨3, 4⟩, ⟨3, 10⟩].length ∧
    (0 : ℚ) ≤ 1 / 4 ∧ (1 / 4 : ℚ) ≤ 1 / 2 ∧ (1 / 2 : ℚ) < 1 ∧
    (∃ (i1 i2 : ℤ) (l1 l2 : ℚ),
      (getPositionOnTrack hypotQ [⟨0, 0⟩, ⟨3, 4⟩, ⟨3, 10⟩] (1 / 4)).segmentIndex = some i1 ∧
      (getPositionOnTrack hypotQ [⟨0, 0⟩, ⟨3, 4⟩, ⟨3, 10⟩] (1 / 4)).localT = some l1 ∧
      (getPositionOnTrack hypotQ [⟨0, 0⟩, ⟨3, 4⟩, ⟨3, 10⟩] (1 / 2)).segmentIndex = some i2 ∧
      (getPositionOnTrack hypotQ [⟨0, 0⟩, ⟨3, 4⟩, ⟨3, 10⟩] (1 / 2)).localT = some l2 ∧
      (i1 < i2 ∨ (i1 = i2 ∧ l1 ≤ l2))) ∧
    getPositionOnTrack hypotQ [⟨0, 0⟩, ⟨3, 4⟩, ⟨3, 10⟩] (1 / 4) =
      { x := 33 / 20, y := 11 / 5, segmentIndex := some 0, localT := some (11 / 20) } :=
  ⟨hypotQ_nonneg, by decide, by norm_num, by norm_num, by norm_num,
    resolution_monotone hypotQ hypotQ_nonneg [⟨0, 0⟩, ⟨3, 4⟩, ⟨3, 10⟩] (by decide) (1 / 4) (1 / 2)
      (by norm_num) (by norm_num) (by norm_num),
    by decide!⟩

/-! ## Claims on the two normalizers -/

theorem normalizeWith_round (p : Point) (ps : List Point) (width height padding : ℚ) :
    normalizeWith mathRound p ps width height padding
      = (normalizeWith id p ps width height padding).map roundPoint := by
  unfold normalizeWith
  simp only [List.map_map]
  apply List.map_congr_left
  intro q _
  rfl

theorem mathRound_near (v : ℚ) : |mathRound v - v| ≤ 1 / 2 := by
  unfold mathRound
  have h1 := Int.floor_le (v + 1 / 2)
  have h2 := Int.lt_floor_add_one (v + 1 / 2)
  rw [abs_le]
  constructor <;> linarith

/-- C24, at the failing input.  For the points `(0,0), (1,8)` into 800 by 600
with padding 40 the first point is `(367.5, 40)` in the `normalized` memo of
`CanvasPlaceholder`, which its comment calls the same algorithm as
`normalizeTrack`, and `(368, 40)` from `normalizeTrack`, which rounds. -/
theorem normalizers_differ :
    normalized [⟨0, 0⟩, ⟨1, 8⟩] 800 600 40 = [⟨367.5, 40⟩, ⟨432.5, 560⟩] ∧
    normalizeTrack [⟨0, 0⟩, ⟨1, 8⟩] 800 600 40 = [⟨368, 40⟩, ⟨433, 560⟩] ∧
    normalized [⟨0, 0⟩, ⟨1, 8⟩] 800 600 40 ≠ normalizeTrack [⟨0, 0⟩, ⟨1, 8⟩] 800 600 40 :=
  ⟨by decide!, by decide!, by decide!⟩

/-- The two normalizers differ by the final rounding only:
`normalizeTrack(points, width, height, padding)` is the list of normalized
points computed inside `CanvasPlaceholder` with `Math.round` applied to each
coordinate, so the two have the same length and corresponding coordinates
differ by at most `1/2`. -/
theorem normalizers_agree_up_to_rounding (pts : List Point) (width height padding : ℚ) :
    normalizeTrack pts width height padding
      = (normalized pts width height padding).map roundPoint ∧
    withinTolerance (1 / 2) (normalizeTrack pts width height padding)
      (normalized pts width height padding) := by
  have key : normalizeTrack pts width height padding
      = (normalized pts width height padding).map roundPoint := by
    cases pts with
    | nil => rfl
    | cons p ps => exact normalizeWith_round p ps width height padding
  refine ⟨key, ?_⟩
  rw [key]
  refine ⟨List.length_map _ _, ?_⟩
  intro pq hpq
  rw [List.zip_map_left, List.mem_map] at hpq
  obtain ⟨⟨a, b⟩, hab, rfl⟩ := hpq
  have hEq : a = b := by
    rw [List.zip_eq_zipWith, List.mem_iff_getElem] at hab
    obtain ⟨n, hn, he⟩ := hab
    simp only [List.getElem_zipWith, Prod.mk.injEq] at he
    rw [← he.1, ← he.2]
  subst hEq
  exact ⟨mathRound_near a.x, mathRound_near a.y⟩

/-! ## Claims on laps and small steps -/

theorem lapEffect_isSome (b : Bool) (refs : LapRefs) (cur now : ℚ)
    (h : (lapEffect b refs cur now).2.isSome = true) : refs.prevProgress > 0.9 ∧ cur < 0.1 := by
  unfold lapEffect at h
  simp only at h
  split_ifs at h with hc hb <;> first | exact hc | simp at h

theorem lapRun_no_double (b : Bool) : ∀ (refs : LapRefs) (obs : List (ℚ × ℚ)) (i : ℕ)
    (e1 e2 : Option LapEvent),
    (lapRun b refs obs)[i]? = some e1 → (lapRun b refs obs)[i + 1]? = some e2 →
    ¬ (e1.isSome = true ∧ e2.isSome = true)
  | _, [], _, _, _, h, _ => by simp [lapRun] at h
  | refs, [(c1, n1)], 0, e1, e2, _, h2 => by simp [lapRun] at h2
  | refs, (c1, n1) :: (c2, n2) :: rest, 0, e1, e2, h1, h2 => by
    simp only [lapRun, List.getElem?_cons_zero, List.getElem?_cons_succ, zero_add,
      Option.some.injEq] at h1 h2
    rintro ⟨s1, s2⟩
    rw [← h1] at s1
    rw [← h2] at s2
    have a1 := lapEffect_isSome b refs c1 n1 s1
    have a2 := lapEffect_isSome b _ c2 n2 s2
    rw [lapEffect_prev] at a2
    have : (0.1 : ℚ) < 0.9 := by norm_num
    linarith [a1.2, a2.1]
  | refs, (c1, n1) :: rest, i + 1, e1, e2, h1, h2 => by
    rw [lapRun, List.getElem?_cons_succ] at h1 h2
    exact lapRun_no_double b _ rest i e1 e2 h1 h2

/-- C26. No consecutive double fire: over every sequence of observations, with
or without an `onLap` callback, the lap detector never fires on two
consecutive observations. -/
theorem lap_no_consecutive_fire (b : Bool) (obs : List (ℚ × ℚ)) (i : ℕ)
    (e1 e2 : Option LapEvent) (h1 : (lapDetector b obs)[i]? = some e1)
    (h2 : (lapDetector b obs)[i + 1]? = some e2) :
    ¬ (e1.isSome = true ∧ e2.isSome = true) := by
  cases obs with
  | nil => simp [lapDetector] at h1
  | cons o rest =>
    obtain ⟨c0, n0⟩ := o
    exact lapRun_no_double b _ _ i e1 e2 h1 h2

/-- C26, at a concrete input: on `0.95, 0.02, 0.95, 0.03` the detector fires
at the second and the fourth observation, not at the third. -/
theorem lap_no_consecutive_fire_witness :
    (lapDetector true twoWraps)[1]? = some (some { lapTimeSeconds := none, progress := 0.02 }) ∧
    (lapDetector true twoWraps)[1 + 1]? = some none ∧
    ¬ ((some ({ lapTimeSeconds := none, progress := 0.02 } : LapEvent)).isSome = true ∧
        (none : Option LapEvent).isSome = true) :=
  ⟨by decide!, by decide!,
    lap_no_consecutive_fire true twoWraps 1 _ _ (by decide!) (by decide!)⟩

/-- C27. Driver and detector agree for small steps: for a previous progress
below `1`, so for every one in `[0,1)`, and a per-tick advance `d = SPEED * (dt / (1000/60))` with
`0 < d < 0.1`, the tick update wraps, the new progress being smaller than the
previous one, if and only if the lap condition `previous > 0.9` and
`new < 0.1` holds, which is when the lap effect calls `onLap`. -/
theorem driver_detector_agree (speed dt prev : ℚ) (h1 : prev < 1)
    (hd0 : 0 < speed * (dt / (1000 / 60))) (hd1 : speed * (dt / (1000 / 60)) < 0.1) :
    (tickUpdate speed dt prev < prev ↔ prev > 0.9 ∧ tickUpdate speed dt prev < 0.1) ∧
    ∀ (ts : Option ℚ) (now : ℚ),
      ((lapEffect true { prevProgress := prev, lapTimestamp := ts }
          (tickUpdate speed dt prev) now).2.isSome = true
        ↔ tickUpdate speed dt prev < prev) := by
  have key : tickUpdate speed dt prev < prev ↔ prev > 0.9 ∧ tickUpdate speed dt prev < 0.1 := by
    unfold tickUpdate mathFloor
    simp only
    generalize speed * (dt / (1000 / 60)) = d at hd0 hd1 ⊢
    have e9 : (0.9 : ℚ) = 9 / 10 := by norm_num
    have e1 : (0.1 : ℚ) = 1 / 10 := by norm_num
    rw [e1] at hd1
    rw [e9, e1]
    split_ifs with h
    · have hfl : ⌊prev + d⌋ = 1 := by
        rw [Int.floor_eq_iff]
        constructor
        · push_cast; linarith
        · push_cast; linarith
      rw [hfl]
      push_cast
      constructor
      · intro _
        constructor <;> linarith
      · intro _
        linarith
    · constructor
      · intro hlt
        linarith
      · rintro ⟨ha, hb⟩
        linarith
  refine ⟨key, ?_⟩
  intro ts now
  rw [key]
  exact (lapEffect_fires _ _ _).1

/-- C27, at a concrete input: speed `0.0006`, a tick of `1000` ms (advance
`0.036`) from progress `0.99` wraps to `0.026`. -/
theorem driver_detector_agree_witness :
    (0.99 : ℚ) < 1 ∧ (0 : ℚ) < 0.0006 * (1000 / (1000 / 60)) ∧
    (0.0006 : ℚ) * (1000 / (1000 / 60)) < 0.1 ∧
    (tickUpdate 0.0006 1000 0.99 < 0.99 ↔ (0.99 : ℚ) > 0.9 ∧ tickUpdate 0.0006 1000 0.99 < 0.1) ∧
    tickUpdate 0.0006 1000 0.99 = 0.026 :=
  ⟨by norm_num, by norm_num, by norm_num,
    (driver_detector_agree 0.0006 1000 0.99 (by norm_num) (by norm_num) (by norm_num)).1,
    by decide!⟩

theorem advance_of_le (prev cur : ℚ) (h0 : 0 ≤ prev) (h1 : cur < 1) (h : prev ≤ cur) :
    advance prev cur = cur - prev := by
  unfold advance
  exact Int.fract_eq_self.2 ⟨by linarith, by linarith⟩

theorem advance_of_lt (prev cur : ℚ) (h0 : 0 ≤ cur) (h1 : prev < 1) (h : cur < prev) :
    advance prev cur = cur - prev + 1 := by
  unfold advance
  rw [Int.fract_eq_iff]
  exact ⟨by linarith, by linarith, -1, by push_cast; ring⟩

/-- C23, as stated, fails.  From `0.5` to `0.2` the progress advances by `0.7`,
forward and by no more than `0.8`, and wraps, yet the detector does not fire;
the same happens from `0.9` to `0`, an advance of exactly `0.1`. -/
theorem lap_missed_within_bound :
    ((0 : ℚ) ≤ 0.5 ∧ (0.5 : ℚ) < 1 ∧ (0 : ℚ) ≤ 0.2 ∧ (0.2 : ℚ) < 1) ∧
    advance 0.5 0.2 = 0.7 ∧ (0 : ℚ) < 0.7 ∧ (0.7 : ℚ) ≤ 0.8 ∧ (0.2 : ℚ) < 0.5 ∧
    lapDetector true [(0.5, 1000), (0.2, 2000)] = [none, none] ∧
    advance 0.9 0 = 0.1 ∧ (0 : ℚ) < 0.9 ∧
    lapDetector true [(0.9, 1000), (0, 2000)] = [none, none] :=
  ⟨by norm_num, by decide!, by norm_num, by norm_num, by norm_num, by decide!, by decide!,
    by norm_num, by decide!⟩

/-- C23, amended.  Lap detection under a small-step assumption: in every
sequence of observations, at a step between two progress values in `[0,1)`
that advances forward (modulo `1`) by more than `0` and less than `0.1`, the
lap detector fires if and only if the progress wrapped at that step, the
current value being smaller than the previous one. -/
theorem lap_iff_wrap_small_steps (obs : List (ℚ × ℚ)) (i : ℕ) (pr c : ℚ × ℚ)
    (hpr : obs[i]? = some pr) (hc : obs[i + 1]? = some c)
    (hr1 : 0 ≤ pr.1 ∧ pr.1 < 1) (hr2 : 0 ≤ c.1 ∧ c.1 < 1)
    (hstep : 0 < advance pr.1 c.1 ∧ advance pr.1 c.1 < 0.1) :
    ∃ e, (lapDetector true obs)[i + 1]? = some e ∧ (e.isSome = true ↔ c.1 < pr.1) ∧
      ∀ ev, e = some ev → ev.progress = c.1 := by
  have e1 : (0.1 : ℚ) = 1 / 10 := by norm_num
  have e9 : (0.9 : ℚ) = 9 / 10 := by norm_num
  have hiff : (pr.1 > 0.9 ∧ c.1 < 0.1) ↔ c.1 < pr.1 := by
    rw [e1] at hstep
    rw [e1, e9]
    constructor
    · rintro ⟨ha, hb⟩
      linarith
    · intro hlt
      have ha := advance_of_lt pr.1 c.1 hr2.1 hr1.2 hlt
      rw [ha] at hstep
      constructor <;> linarith [hstep.2, hr2.1]
  cases obs with
  | nil => simp at hpr
  | cons o rest =>
    obtain ⟨c0, n0⟩ := o
    obtain ⟨e, he, hfire, hprog⟩ :=
      lapRun_succ { prevProgress := c0, lapTimestamp := none } ((c0, n0) :: rest) i pr c hpr hc
    exact ⟨e, he, hfire.trans hiff, hprog⟩

/-- C23 amended, at a concrete input: from `0.99` to `0.02` the progress
advances by `0.03` and wraps, and the detector fires. -/
theorem lap_iff_wrap_small_steps_witness :
    [((0.95 : ℚ), (1 : ℚ)), (0.97, 2), (0.99, 3), (0.02, 4), (0.05, 5)][2]?
      = some ((0.99 : ℚ), (3 : ℚ)) ∧
    [((0.95 : ℚ), (1 : ℚ)), (0.97, 2), (0.99, 3), (0.02, 4), (0.05, 5)][2 + 1]?
      = some ((0.02 : ℚ), (4 : ℚ)) ∧
    advance 0.99 0.02 = 0.03 ∧
    ∃ e, (lapDetector true [(0.95, 1), (0.97, 2), (0.99, 3), (0.02, 4), (0.05, 5)])[2 + 1]?
        = some e ∧
      (e.isSome = true ↔ ((0.02 : ℚ), (4 : ℚ)).1 < ((0.99 : ℚ), (3 : ℚ)).1) ∧
      ∀ ev, e = some ev → ev.progress = ((0.02 : ℚ), (4 : ℚ)).1 :=
  ⟨by rfl, by rfl, by decide!,
    lap_iff_wrap_small_steps [(0.95, 1), (0.97, 2), (0.99, 3), (0.02, 4), (0.05, 5)] 2
      (0.99, 3) (0.02, 4) (by rfl) (by rfl) (by norm_num) (by norm_num)
      (by
        have h : advance (0.99 : ℚ) 0.02 = 0.03 := by decide!
        show 0 < advance (0.99 : ℚ) 0.02 ∧ advance (0.99 : ℚ) 0.02 < 0.1
        rw [h]
        norm_num)⟩

end RedLine
